import Mathlib

/-!
Verification development for the ImageCompressor repository.

The definitions below are a shallow embedding of src/image_compressor.py
(the program the claims cite).  Pure byte strings are abstracted to their
length plus an identity token, the SQLite table processed_images becomes an
association list, the filesystem becomes an association list from relative
paths to contents, and the three imaging back ends (the external cjpeg and
cwebp tools, the PIL png-to-jpeg conversion, and the PIL re-encode used as
a fallback) become oracle functions supplied as parameters, since their
output bytes are outside the program.  The thread pool is modelled as
sequential execution in an arbitrary order: every access to the store and
the counters in the source is a single critical section per logical
operation, and the claims under study quantify over processing orders
explicitly where order matters.  The byte-total aggregation counters
(total_images_original_size and friends) are omitted: the spec, section 1,
excludes aggregate byte-size reporting arithmetic from the core.
-/

namespace ImageCompressor

/-- A byte string, abstracted to its length in bytes together with a token
distinguishing different byte strings of equal length.  The program under
study only ever compares sizes and tests byte-for-byte equality; it never
inspects individual bytes. -/
structure Content where
  sz : Nat
  bytesId : Nat
deriving DecidableEq, Repr

/-- SHA-256 streaming digest of a file content (file_hash, lines 67-72 of
image_compressor.py).  The digest is collision resistant and the program
relies on digests identifying byte-identical files (spec glossary), so it
is modelled as an injective map on contents, here the identity. -/
def file_hash (c : Content) : Content := c

/-- TARGET_SIZE = 2 * 1024 * 1024 (image_compressor.py, line 16). -/
def TARGET_SIZE : Nat := 2 * 1024 * 1024

/-- MIN_SIZE = 2 * 1024 * 1024 (image_compressor.py, line 17). -/
def MIN_SIZE : Nat := 2 * 1024 * 1024

/-- A path relative to the input directory, split the way the source uses
it: Path.stem and Path.suffix.  Extensions are stored lowercased, matching
the lowercasing applied both by find_images and by compress_image before
any extension is consulted. -/
structure Pth where
  stem : String
  ext : String
deriving DecidableEq, Repr

/-- The directory tree under input_dir: relative path to file content. -/
abbrev FS := List (Pth × Content)

/-- Content of the file at a path, none when no such file exists. -/
def fsGet (fs : FS) (p : Pth) : Option Content :=
  match fs with
  | [] => none
  | (q, c) :: rest => if q = p then some c else fsGet rest p

/-- Write a file: overwrite the entry at the path or create it. -/
def fsSet (fs : FS) (p : Pth) (c : Content) : FS :=
  match fs with
  | [] => [(p, c)]
  | (q, d) :: rest => if q = p then (p, c) :: rest else (q, d) :: fsSet rest p c

/-- Delete the file at a path (Path.unlink). -/
def fsDel (fs : FS) (p : Pth) : FS :=
  match fs with
  | [] => []
  | (q, d) :: rest => if q = p then fsDel rest p else (q, d) :: fsDel rest p

/-- The processed_images table: hash (primary key) to the set of relative
paths stored in the filename column.  The source serializes the set as a
delimiter-joined sorted string; the model keeps the set as a duplicate-free
list, which carries the same information. -/
abbrev Db := List (Content × List Pth)

/-- SELECT filename FROM processed_images WHERE hash = ?. -/
def dbLookup (db : Db) (h : Content) : Option (List Pth) :=
  match db with
  | [] => none
  | (k, l) :: rest => if k = h then some l else dbLookup rest h

/-- UPDATE the row with the given hash, or INSERT it when absent. -/
def dbSet (db : Db) (h : Content) (l : List Pth) : Db :=
  match db with
  | [] => [(h, l)]
  | (k, m) :: rest => if k = h then (h, l) :: rest else (k, m) :: dbSet rest h l

/-- Adjoin a path to a path set, a no-op when it is already present.  This
is the set-add performed on the stored path set before it is rewritten. -/
def addPath (p : Pth) (l : List Pth) : List Pth :=
  if p ∈ l then l else l ++ [p]

/-- The four per-file counters of the run report. -/
structure Stats where
  processed : Nat
  skipped : Nat
  skippedSize : Nat
  errors : Nat
deriving DecidableEq, Repr

/-- All-zero counters at the start of a run. -/
def stats0 : Stats := ⟨0, 0, 0, 0⟩

/-- Mutable run state shared by the workers: the directory tree, the
processed_images table, the processed_hashes set (confirmed fingerprints
read by the post-run reconciliation), and the counters. -/
structure St where
  fs : FS
  db : Db
  confirmed : List Content
  stats : Stats
deriving DecidableEq, Repr

/-- Observable per-file actions, recorded so that claims about what was or
was not invoked for a file can be stated: the content hash being computed,
one external tool invocation at a quality, one PIL save at a quality in the
fallback adapter, and the PIL open performed by the png conversion. -/
inductive Ev where
  | hashed (p : Pth)
  | extTool (q : Nat)
  | pilSave (q : Nat)
  | pngOpen (p : Pth)
deriving DecidableEq, Repr

/-- The imaging back ends, supplied as oracles since their output bytes
are produced outside the program.  extEnc ext c q is the candidate written
by the external tool selected for extension ext when run at quality q on
source bytes c, none when the subprocess raises (missing binary or nonzero
exit).  pngConv c is the JPEG produced by PIL convert-to-RGB-and-save,
none when PIL raises.  pilEnc c q is the candidate written by the fallback
PIL save at quality q, none when PIL raises.  hasExif c tells whether the
image info of c carries an exif blob (extract_exif, absence or extraction
failure both give false), and injectSave c is the result of the
best-effort exif reinjection re-save applied to a committed candidate
(inject_exif re-encodes the file; a caught injection failure is the
identity on the file, a special case of this arbitrary function). -/
structure Oracles where
  extEnc : String → Content → Nat → Option Content
  pngConv : Content → Option Content
  pilEnc : Content → Nat → Option Content
  hasExif : Content → Bool
  injectSave : Content → Content

/-- Candidate target names tried by convert_png_to_jpeg, lines 109-114:
first the bare stem with suffix .jpg, then stem (1).jpg, stem (2).jpg and
so on. -/
def jpegCandidate (stem : String) (i : Nat) : Pth :=
  if i = 0 then ⟨stem, ".jpg"⟩ else ⟨stem ++ " (" ++ toString i ++ ")", ".jpg"⟩

/-- The while-loop of lines 111-114 searching for a name not yet taken.
The loop always terminates because the directory is finite and the
candidate names are pairwise distinct; the model makes this explicit with
a fuel bound larger than the number of files. -/
def freshJpegGo (fs : FS) (stem : String) : Nat → Nat → Option Pth
  | _, 0 => none
  | i, fuel + 1 =>
    if (fsGet fs (jpegCandidate stem i)).isSome then freshJpegGo fs stem (i + 1) fuel
    else some (jpegCandidate stem i)

/-- Name selection of convert_png_to_jpeg with enough fuel for the search
to cover more candidates than there are files. -/
def freshJpeg (fs : FS) (stem : String) : Option Pth :=
  freshJpegGo fs stem 0 (fs.length + 1)

/-- convert_png_to_jpeg (lines 104-128): choose a fresh sibling .jpg name,
open and re-save through PIL, and on success delete the original png and
return the new path; on a PIL failure the partially written target is
removed and none is returned, leaving the tree unchanged. -/
def convert_png_to_jpeg (O : Oracles) (fs : FS) (p : Pth) (c : Content) :
    Option (Pth × Content × FS) :=
  match freshJpeg fs p.stem with
  | none => none
  | some np =>
    match O.pngConv c with
    | none => none
    | some cj => some (np, cj, fsDel (fsSet fs np cj) p)

/-- Result of one quality-ladder loop: raised means the encoder invocation
raised (the enclosing handler then removes the temp file and reports
failure), finished means the while-loop ended, either by the break on
meeting the ceiling or by the quality dropping below the floor; the
carried option is the last content written to the temp path, none when no
iteration ever wrote it. -/
inductive LadderOut where
  | raised (tmp : Option Content)
  | finished (tmp : Option Content)
deriving DecidableEq, Repr

/-- The descending quality while-loop shared verbatim by lines 182-194 and
lines 227-238: while quality is at least the floor, invoke the encoder,
stop on a candidate at or below TARGET_SIZE, otherwise decrement by the
step.  The second component lists the qualities actually invoked.  The
fuel argument only caps the iteration count; both call sites pass fuel
covering every quality from 85 down to 50. -/
def ladderGo (enc : Nat → Option Content) (floorQ step : Nat) :
    Nat → Nat → Option Content → LadderOut × List Nat
  | 0, _, tmp => (.finished tmp, [])
  | fuel + 1, q, tmp =>
    if q < floorQ then (.finished tmp, [])
    else
      match enc q with
      | none => (.raised tmp, [q])
      | some c =>
        if c.sz ≤ TARGET_SIZE then (.finished (some c), [q])
        else
          let r := ladderGo enc floorQ step fuel (q - step) (some c)
          (r.1, q :: r.2)

/-- Result of one codec adapter call: the boolean outcome, the path the
caller should continue with, the directory tree after the call, and the
recorded events. -/
structure AdRes where
  ok : Bool
  path : Pth
  fs : FS
  evs : List Ev
deriving DecidableEq, Repr

/-- The shared tail of both adapters (lines 182-216 and 227-257): run the
quality ladder from 85 down to 50 in steps of 5 against origSz, and if a
temp candidate exists and is strictly smaller than origSz, reinject exif
when a blob was extracted and rename the temp file onto the path;
otherwise remove the temp file and report failure.  The temp sibling file
exists only inside this call, so the model materializes it in the tree
only at the commit rename. -/
def ladderCommit (enc : Nat → Option Content) (fs : FS) (p : Pth) (origSz : Nat)
    (hasE : Bool) (inj : Content → Content) (tag : Nat → Ev) (pre : List Ev) : AdRes :=
  match ladderGo enc 50 5 8 85 none with
  | (.raised _, qs) => ⟨false, p, fs, pre ++ qs.map tag⟩
  | (.finished none, qs) => ⟨false, p, fs, pre ++ qs.map tag⟩
  | (.finished (some c), qs) =>
    if c.sz < origSz then
      ⟨true, p, fsSet fs p (if hasE then inj c else c), pre ++ qs.map tag⟩
    else
      ⟨false, p, fs, pre ++ qs.map tag⟩

/-- compress_with_external (lines 131-216).  A missing file makes the stat
on line 135 raise outside any handler, modelled as the error case.  A png
is first converted; a conversion failure reports failure at the original
path, a converted file within the ceiling is returned immediately with no
strict-shrink check, and otherwise the ladder runs on the converted file
with original_size rebased to the converted size (lines 149-151).  For
jpg, jpeg and webp the ladder runs on the file itself; any other extension
reports failure.  Exif is extracted from the input file before anything
else (line 134) and reinjected into a committed candidate. -/
def compress_with_external (O : Oracles) (fs0 : FS) (p0 : Pth) (ext0 : String) :
    Except Unit AdRes :=
  match fsGet fs0 p0 with
  | none => .error ()
  | some c0 =>
    if ext0 = ".png" then
      match convert_png_to_jpeg O fs0 p0 c0 with
      | none => .ok ⟨false, p0, fs0, [Ev.pngOpen p0]⟩
      | some (np, cj, fs1) =>
        if cj.sz ≤ TARGET_SIZE then .ok ⟨true, np, fs1, [Ev.pngOpen p0]⟩
        else
          .ok (ladderCommit (O.extEnc ".jpg" cj) fs1 np cj.sz (O.hasExif c0)
            O.injectSave Ev.extTool [Ev.pngOpen p0])
    else if ext0 = ".jpg" ∨ ext0 = ".jpeg" then
      .ok (ladderCommit (O.extEnc ext0 c0) fs0 p0 c0.sz (O.hasExif c0)
        O.injectSave Ev.extTool [])
    else if ext0 = ".webp" then
      .ok (ladderCommit (O.extEnc ".webp" c0) fs0 p0 c0.sz (O.hasExif c0)
        O.injectSave Ev.extTool [])
    else .ok ⟨false, p0, fs0, []⟩

/-- compress_with_pillow (lines 219-257).  The stat on line 221 sits
before the try-block, so a missing file raises out of the function,
modelled as the error case; this is reachable, since the orchestrator
calls the fallback on the original path even after a png conversion
deleted it.  Otherwise the same quality ladder runs through PIL saves and
the same strict-shrink commit applies, against the size of the file this
adapter was handed. -/
def compress_with_pillow (O : Oracles) (fs0 : FS) (p : Pth) : Except Unit AdRes :=
  match fsGet fs0 p with
  | none => .error ()
  | some c0 =>
    .ok (ladderCommit (O.pilEnc c0) fs0 p c0.sz (O.hasExif c0)
      O.injectSave Ev.pilSave [])

/-- Lines 313-346 of compress_image: a truthy adapter result re-stats the
committed file, re-hashes the committed bytes, registers the new
fingerprint under the final relative path (merging into an existing row or
inserting a new one), marks the new fingerprint confirmed and counts the
file processed.  The stat cannot fail here since the adapter just
committed the file; were it to fail, the outer handler would count an
error. -/
def successCommit (st : St) (r : AdRes) (evs : List Ev) : St × List Ev :=
  match fsGet r.fs r.path with
  | none =>
    ({ st with fs := r.fs,
               stats := { st.stats with errors := st.stats.errors + 1 } }, evs)
  | some cNew =>
    let nh := file_hash cNew
    let db' :=
      match dbLookup st.db nh with
      | some l => dbSet st.db nh (addPath r.path l)
      | none => st.db ++ [(nh, [r.path])]
    ({ st with fs := r.fs, db := db', confirmed := nh :: st.confirmed,
               stats := { st.stats with processed := st.stats.processed + 1 } }, evs)

/-- compress_image (lines 260-360), the per-file pipeline.  The file is
statted and hashed first; a file below MIN_SIZE is then counted
skipped-small with its hash confirmed.  A store hit adds the new path to
the row unless already present and counts skipped-duplicate with the hash
confirmed.  On a miss the external adapter runs, the PIL fallback runs on
the original path whenever the external adapter reported failure, a truthy
result is committed and registered, and a falsy result counts an error
with the original hash confirmed.  An exception escaping an adapter is
caught by the handler of lines 355-360, which only counts an error and
confirms nothing.  A file already missing at the entry stat makes the
handler itself fault on its log line before reaching the counter, so
nothing at all is recorded; the task's exception is discarded by the
executor loop. -/
def compress_image (O : Oracles) (st : St) (p : Pth) : St × List Ev :=
  match fsGet st.fs p with
  | none => (st, [])
  | some c0 =>
    let h := file_hash c0
    if c0.sz < MIN_SIZE then
      ({ st with confirmed := h :: st.confirmed,
                 stats := { st.stats with skippedSize := st.stats.skippedSize + 1 } },
       [Ev.hashed p])
    else
      match dbLookup st.db h with
      | some l =>
        ({ st with db := if p ∈ l then st.db else dbSet st.db h (l ++ [p]),
                   confirmed := h :: st.confirmed,
                   stats := { st.stats with skipped := st.stats.skipped + 1 } },
         [Ev.hashed p])
      | none =>
        match compress_with_external O st.fs p p.ext with
        | .error _ =>
          ({ st with stats := { st.stats with errors := st.stats.errors + 1 } },
           [Ev.hashed p])
        | .ok r1 =>
          if r1.ok then
            successCommit st r1 ([Ev.hashed p] ++ r1.evs)
          else
            match compress_with_pillow O r1.fs p with
            | .error _ =>
              ({ st with fs := r1.fs,
                         stats := { st.stats with errors := st.stats.errors + 1 } },
               [Ev.hashed p] ++ r1.evs)
            | .ok r2 =>
              if r2.ok then
                successCommit st r2 ([Ev.hashed p] ++ r1.evs ++ r2.evs)
              else
                ({ st with fs := r2.fs, confirmed := h :: st.confirmed,
                           stats := { st.stats with errors := st.stats.errors + 1 } },
                 [Ev.hashed p] ++ r1.evs ++ r2.evs)

/-- One run over a list of discovered files in a given order. -/
def runAll (O : Oracles) (st : St) (ps : List Pth) : St :=
  ps.foldl (fun s p => (compress_image O s p).1) st

/-- The surviving subset of a stored path set: the paths that still exist
and still hash to the row's key (lines 448-452). -/
def validPaths (fs : FS) (h : Content) (l : List Pth) : List Pth :=
  l.filter (fun q =>
    match fsGet fs q with
    | some c => decide (file_hash c = h)
    | none => false)

/-- The post-run database cleanup of main, lines 437-471: for every row,
compute the surviving paths; delete the row when its hash was never
confirmed during the run or no surviving path remains, and otherwise
rewrite the row to the surviving subset. -/
def reconcile (fs : FS) (confirmed : List Content) (db : Db) : Db :=
  db.filterMap (fun e =>
    let valid := validPaths fs e.1 e.2
    if valid = [] ∨ e.1 ∉ confirmed then none
    else some (e.1, valid))

/-- One mebibyte, for concrete scenarios. -/
def MB : Nat := 1024 * 1024

/-- Concrete path a.png. -/
def pngA : Pth := ⟨"a", ".png"⟩

/-- Concrete path a.jpg. -/
def jpgA : Pth := ⟨"a", ".jpg"⟩

/-- Concrete path b.jpg. -/
def jpgB : Pth := ⟨"b", ".jpg"⟩

/-- Concrete path s.jpg, used for a file below the size floor. -/
def smallJpg : Pth := ⟨"s", ".jpg"⟩

/-- Scenario oracle: the png conversion inflates a 3 MiB png to a 5 MiB
jpeg, and the external tool then always produces a 4 MiB candidate, which
is below the rebased 5 MiB baseline but above the original 3 MiB. -/
def oraclePngGrow : Oracles :=
  ⟨fun _ _ _ => some ⟨4 * MB, 2⟩, fun _ => some ⟨5 * MB, 1⟩, fun _ _ => none,
   fun _ => false, fun c => c⟩

/-- Scenario oracle: the external tool shrinks to 1 MiB, but the file has
an exif blob and the reinjection re-save blows the committed file up to
4 MiB after the size check has already passed. -/
def oracleExifGrow : Oracles :=
  ⟨fun _ _ _ => some ⟨MB, 1⟩, fun _ => none, fun _ _ => none,
   fun _ => true, fun _ => ⟨4 * MB, 9⟩⟩

/-- Scenario oracle: the png conversion produces a 5 MiB jpeg and the
external tool only ever produces 6 MiB candidates, so the ladder never
beats the converted size and the external adapter fails after the original
png is already gone. -/
def oraclePngStuck : Oracles :=
  ⟨fun _ _ _ => some ⟨6 * MB, 2⟩, fun _ => some ⟨5 * MB, 1⟩, fun _ _ => none,
   fun _ => false, fun c => c⟩

/-- Scenario oracle: every back end raises, as when the external tool
binaries are absent. -/
def oracleNone : Oracles :=
  ⟨fun _ _ _ => none, fun _ => none, fun _ _ => none, fun _ => false, fun c => c⟩

/-- Scenario oracle: the external tool runs fine but every candidate has
exactly the original 3 MiB size, so the adapter fails on the strict-shrink
check; the fallback then produces useless 4 MiB candidates. -/
def oracleNotSmaller : Oracles :=
  ⟨fun _ _ _ => some ⟨3 * MB, 5⟩, fun _ => none, fun _ _ => some ⟨4 * MB, 6⟩,
   fun _ => false, fun c => c⟩

/-- Scenario oracle: the external tool deterministically compresses any
input to the same 1 MiB output. -/
def oracleShrink : Oracles :=
  ⟨fun _ _ _ => some ⟨MB, 1⟩, fun _ => none, fun _ _ => none,
   fun _ => false, fun c => c⟩

/-- Scenario oracle: the png conversion raises, while the PIL fallback
succeeds at once with a 1 MiB png re-encode. -/
def oraclePilOnly : Oracles :=
  ⟨fun _ _ _ => none, fun _ => none, fun _ _ => some ⟨MB, 1⟩,
   fun _ => false, fun c => c⟩

/-- Start state holding a single 3 MiB file a.png. -/
def stPngA : St := ⟨[(pngA, ⟨3 * MB, 0⟩)], [], [], stats0⟩

/-- Start state holding a single 3 MiB file a.jpg. -/
def stJpgA : St := ⟨[(jpgA, ⟨3 * MB, 0⟩)], [], [], stats0⟩

/-- Start state holding a single 500 KiB file s.jpg. -/
def stSmall : St := ⟨[(smallJpg, ⟨500 * 1024, 7⟩)], [], [], stats0⟩

/-- Start state holding two byte-identical 3 MiB files a.jpg and b.jpg. -/
def stPair : St := ⟨[(jpgA, ⟨3 * MB, 0⟩), (jpgB, ⟨3 * MB, 0⟩)], [], [], stats0⟩

/-- State after the first run over the single file a.jpg with the
deterministic shrinking oracle. -/
def stAfterRun1 : St := (compress_image oracleShrink stJpgA jpgA).1

/-- Start state of a second run over the unchanged directory: same tree,
the database left by the first run's reconciliation, fresh confirmed set
and counters. -/
def stSecondRun : St :=
  ⟨stAfterRun1.fs, reconcile stAfterRun1.fs stAfterRun1.confirmed stAfterRun1.db,
   [], stats0⟩

/-! Basic facts about the filesystem and database association lists. -/

theorem fsGet_fsSet_self (fs : FS) (p : Pth) (c : Content) :
    fsGet (fsSet fs p c) p = some c := by
  induction fs with
  | nil => simp [fsSet, fsGet]
  | cons e rest ih =>
    obtain ⟨q, d⟩ := e
    by_cases h : q = p
    · simp [fsSet, fsGet, h]
    · simp [fsSet, fsGet, h, ih]

theorem fsGet_fsSet_ne (fs : FS) (p q : Pth) (c : Content) (h : q ≠ p) :
    fsGet (fsSet fs p c) q = fsGet fs q := by
  induction fs with
  | nil => simp [fsSet, fsGet, Ne.symm h]
  | cons e rest ih =>
    obtain ⟨q', d⟩ := e
    by_cases h' : q' = p
    · subst h'
      simp [fsSet, fsGet, Ne.symm h]
    · simp only [fsSet, if_neg h', fsGet]
      by_cases h'' : q' = q
      · simp [h'']
      · simp [h'', ih]

theorem fsGet_fsDel_self (fs : FS) (p : Pth) : fsGet (fsDel fs p) p = none := by
  induction fs with
  | nil => simp [fsDel, fsGet]
  | cons e rest ih =>
    obtain ⟨q, d⟩ := e
    by_cases h : q = p
    · simp [fsDel, h, ih]
    · simp [fsDel, fsGet, h, ih]

theorem fsGet_fsDel_ne (fs : FS) (p q : Pth) (h : q ≠ p) :
    fsGet (fsDel fs p) q = fsGet fs q := by
  induction fs with
  | nil => simp [fsDel]
  | cons e rest ih =>
    obtain ⟨q', d⟩ := e
    by_cases h' : q' = p
    · subst h'
      simp [fsDel, fsGet, Ne.symm h, ih]
    · simp only [fsDel, if_neg h', fsGet]
      by_cases h'' : q' = q
      · simp [h'']
      · simp [h'', ih]

theorem dbLookup_dbSet_self (db : Db) (h : Content) (l : List Pth) :
    dbLookup (dbSet db h l) h = some l := by
  induction db with
  | nil => simp [dbSet, dbLookup]
  | cons e rest ih =>
    obtain ⟨k, m⟩ := e
    by_cases hk : k = h
    · simp [dbSet, dbLookup, hk]
    · simp [dbSet, dbLookup, hk, ih]

theorem dbLookup_append (db : Db) (h k : Content) (v : List Pth)
    (hnone : dbLookup db h = none) :
    dbLookup (db ++ [(k, v)]) h = if k = h then some v else none := by
  induction db with
  | nil => simp [dbLookup]
  | cons e rest ih =>
    obtain ⟨k', m⟩ := e
    by_cases hk : k' = h
    · simp [dbLookup, hk] at hnone
    · simp only [dbLookup, if_neg hk] at hnone
      simp only [List.cons_append, dbLookup, if_neg hk]
      exact ih hnone

theorem dbSet_append (db : Db) (k : Content) (v w : List Pth)
    (hnone : dbLookup db k = none) :
    dbSet (db ++ [(k, v)]) k w = db ++ [(k, w)] := by
  induction db with
  | nil => simp [dbSet]
  | cons e rest ih =>
    obtain ⟨k', m⟩ := e
    by_cases hk : k' = k
    · simp [dbLookup, hk] at hnone
    · simp only [dbLookup, if_neg hk] at hnone
      simp only [List.cons_append, dbSet, if_neg hk]
      exact congrArg _ (ih hnone)

theorem addPath_self_mem (p : Pth) (l : List Pth) : p ∈ addPath p l := by
  by_cases h : p ∈ l <;> simp [addPath, h]

theorem addPath_of_not_mem (p : Pth) (l : List Pth) (h : p ∉ l) :
    addPath p l = l ++ [p] := by
  simp [addPath, h]

/-! Facts about the shared quality-ladder loop. -/

theorem ladderGo_nil_of_lt (enc : Nat → Option Content) (floorQ step fuel q : Nat)
    (tmp : Option Content) (h : q < floorQ) :
    (ladderGo enc floorQ step fuel q tmp).2 = [] := by
  cases fuel <;> simp [ladderGo, h]

theorem ladderGo_len_le_fuel (enc : Nat → Option Content) (floorQ step : Nat) :
    ∀ fuel q tmp, (ladderGo enc floorQ step fuel q tmp).2.length ≤ fuel := by
  intro fuel
  induction fuel with
  | zero => intro q tmp; simp [ladderGo]
  | succ n ih =>
    intro q tmp
    by_cases hq : q < floorQ
    · simp [ladderGo, hq]
    · rcases henc : enc q with _ | c
      · simp [ladderGo, hq, henc]
      · by_cases hsz : c.sz ≤ TARGET_SIZE
        · simp [ladderGo, hq, henc, hsz]
        · simp only [ladderGo, if_neg hq, henc, if_neg hsz, List.length_cons]
          exact Nat.succ_le_succ (ih (q - step) (some c))

theorem ladderGo_len_le (enc : Nat → Option Content) (floorQ step : Nat)
    (hf : 1 ≤ floorQ) (hs : 1 ≤ step) :
    ∀ fuel q tmp,
      (ladderGo enc floorQ step fuel q tmp).2.length ≤ (q - floorQ) / step + 1 := by
  intro fuel
  induction fuel with
  | zero => intro q tmp; simp [ladderGo]
  | succ n ih =>
    intro q tmp
    by_cases hq : q < floorQ
    · simp [ladderGo, hq]
    · rcases henc : enc q with _ | c
      · simp [ladderGo, hq, henc]
      · by_cases hsz : c.sz ≤ TARGET_SIZE
        · simp [ladderGo, hq, henc, hsz]
        · simp only [ladderGo, if_neg hq, henc, if_neg hsz, List.length_cons]
          by_cases hd : step ≤ q - floorQ
          · have hih := ih (q - step) (some c)
            have heq : (q - floorQ) / step = (q - step - floorQ) / step + 1 := by
              have h2 : q - floorQ - step = q - step - floorQ := by omega
              rw [Nat.div_eq_sub_div hs hd, h2]
            omega
          · have hlt : q - step < floorQ := by omega
            rw [ladderGo_nil_of_lt enc floorQ step n (q - step) (some c) hlt]
            simp

theorem ladderGo_mem_floor (enc : Nat → Option Content) (floorQ step : Nat) :
    ∀ fuel q tmp x, x ∈ (ladderGo enc floorQ step fuel q tmp).2 → floorQ ≤ x := by
  intro fuel
  induction fuel with
  | zero => intro q tmp x hx; simp [ladderGo] at hx
  | succ n ih =>
    intro q tmp x hx
    by_cases hq : q < floorQ
    · simp [ladderGo, hq] at hx
    · rcases henc : enc q with _ | c
      · simp [ladderGo, hq, henc] at hx
        omega
      · by_cases hsz : c.sz ≤ TARGET_SIZE
        · simp [ladderGo, hq, henc, hsz] at hx
          omega
        · simp only [ladderGo, if_neg hq, henc, if_neg hsz, List.mem_cons] at hx
          rcases hx with hx | hx
          · omega
          · exact ih (q - step) (some c) x hx

theorem ladderGo_arith (enc : Nat → Option Content) (floorQ step : Nat) :
    ∀ fuel q tmp,
      (ladderGo enc floorQ step fuel q tmp).2 =
        (List.range (ladderGo enc floorQ step fuel q tmp).2.length).map
          (fun i => q - i * step) := by
  intro fuel
  induction fuel with
  | zero => intro q tmp; simp [ladderGo]
  | succ n ih =>
    intro q tmp
    by_cases hq : q < floorQ
    · simp [ladderGo, hq]
    · rcases henc : enc q with _ | c
      · have h1 : (ladderGo enc floorQ step (n + 1) q tmp).2 = [q] := by
          simp [ladderGo, hq, henc]
        rw [h1]
        simp [List.range_succ]
      · by_cases hsz : c.sz ≤ TARGET_SIZE
        · have h1 : (ladderGo enc floorQ step (n + 1) q tmp).2 = [q] := by
            simp [ladderGo, hq, henc, hsz]
          rw [h1]
          simp [List.range_succ]
        · simp only [ladderGo, if_neg hq, henc, if_neg hsz, List.length_cons]
          rw [List.range_succ_eq_map, List.map_cons, List.map_map]
          congr 1
          · omega
          · conv_lhs => rw [ih (q - step) (some c)]
            have hfun : (fun i => q - step - i * step) =
                ((fun i => q - i * step) ∘ Nat.succ) := by
              funext i
              simp only [Function.comp_apply, Nat.succ_mul]
              omega
            rw [hfun]

theorem ladderGo_self_mem (enc : Nat → Option Content) (floorQ step fuel q : Nat)
    (tmp : Option Content) (hq : ¬ q < floorQ) :
    q ∈ (ladderGo enc floorQ step (fuel + 1) q tmp).2 := by
  rcases henc : enc q with _ | c
  · simp [ladderGo, hq, henc]
  · by_cases hsz : c.sz ≤ TARGET_SIZE
    · simp [ladderGo, hq, henc, hsz]
    · simp [ladderGo, hq, henc, hsz]

/-! Facts about the shared commit tail of the two adapters. -/

theorem ladderCommit_path (enc : Nat → Option Content) (fs : FS) (p : Pth)
    (origSz : Nat) (hasE : Bool) (inj : Content → Content) (tag : Nat → Ev)
    (pre : List Ev) :
    (ladderCommit enc fs p origSz hasE inj tag pre).path = p := by
  rcases hgo : ladderGo enc 50 5 8 85 none with ⟨out, qs⟩
  rcases out with tmp | tmp
  · simp [ladderCommit, hgo]
  · rcases tmp with _ | c
    · simp [ladderCommit, hgo]
    · simp only [ladderCommit, hgo]
      split <;> rfl

theorem ladderCommit_evs (enc : Nat → Option Content) (fs : FS) (p : Pth)
    (origSz : Nat) (hasE : Bool) (inj : Content → Content) (tag : Nat → Ev)
    (pre : List Ev) :
    (ladderCommit enc fs p origSz hasE inj tag pre).evs =
      pre ++ (ladderGo enc 50 5 8 85 none).2.map tag := by
  rcases hgo : ladderGo enc 50 5 8 85 none with ⟨out, qs⟩
  rcases out with tmp | tmp
  · simp [ladderCommit, hgo]
  · rcases tmp with _ | c
    · simp [ladderCommit, hgo]
    · simp only [ladderCommit, hgo]
      split <;> rfl

theorem ladderCommit_not_ok (enc : Nat → Option Content) (fs : FS) (p : Pth)
    (origSz : Nat) (hasE : Bool) (inj : Content → Content) (tag : Nat → Ev)
    (pre : List Ev)
    (h : (ladderCommit enc fs p origSz hasE inj tag pre).ok = false) :
    (ladderCommit enc fs p origSz hasE inj tag pre).fs = fs := by
  rcases hgo : ladderGo enc 50 5 8 85 none with ⟨out, qs⟩
  rcases out with tmp | tmp
  · simp [ladderCommit, hgo]
  · rcases tmp with _ | c
    · simp [ladderCommit, hgo]
    · simp only [ladderCommit, hgo] at h ⊢
      by_cases hlt : c.sz < origSz
      · rw [if_pos hlt] at h
        simp at h
      · rw [if_neg hlt]

theorem ladderCommit_ok (enc : Nat → Option Content) (fs : FS) (p : Pth)
    (origSz : Nat) (hasE : Bool) (inj : Content → Content) (tag : Nat → Ev)
    (pre : List Ev)
    (h : (ladderCommit enc fs p origSz hasE inj tag pre).ok = true) :
    ∃ c, c.sz < origSz ∧
      (ladderCommit enc fs p origSz hasE inj tag pre).fs =
        fsSet fs p (if hasE then inj c else c) := by
  rcases hgo : ladderGo enc 50 5 8 85 none with ⟨out, qs⟩
  rcases out with tmp | tmp
  · simp [ladderCommit, hgo] at h
  · rcases tmp with _ | c
    · simp [ladderCommit, hgo] at h
    · simp only [ladderCommit, hgo] at h ⊢
      by_cases hlt : c.sz < origSz
      · rw [if_pos hlt]
        exact ⟨c, hlt, rfl⟩
      · rw [if_neg hlt] at h
        simp at h

/-! Facts about the fresh-name search of the png conversion. -/

theorem freshJpegGo_spec (fs : FS) (stem : String) :
    ∀ fuel i np, freshJpegGo fs stem i fuel = some np →
      fsGet fs np = none ∧ ∃ j, i ≤ j ∧ np = jpegCandidate stem j := by
  intro fuel
  induction fuel with
  | zero => intro i np h; simp [freshJpegGo] at h
  | succ n ih =>
    intro i np h
    by_cases hocc : (fsGet fs (jpegCandidate stem i)).isSome
    · simp only [freshJpegGo, if_pos hocc] at h
      rcases ih (i + 1) np h with ⟨h1, j, hj, h2⟩
      exact ⟨h1, j, by omega, h2⟩
    · simp only [freshJpegGo, if_neg hocc] at h
      rcases h
      refine ⟨?_, i, le_refl i, rfl⟩
      rcases hget : fsGet fs (jpegCandidate stem i) with _ | c
      · rfl
      · rw [hget] at hocc
        simp at hocc

theorem freshJpeg_spec (fs : FS) (stem : String) (np : Pth)
    (h : freshJpeg fs stem = some np) :
    fsGet fs np = none ∧ np.ext = ".jpg" ∧
      (np.stem = stem ∨ ∃ k, 1 ≤ k ∧ np.stem = stem ++ " (" ++ toString k ++ ")") := by
  rcases freshJpegGo_spec fs stem (fs.length + 1) 0 np h with ⟨h1, j, _, h2⟩
  subst h2
  by_cases hj : j = 0
  · subst hj
    have hcand : jpegCandidate stem 0 = ⟨stem, ".jpg"⟩ := rfl
    rw [hcand] at h1 ⊢
    exact ⟨h1, rfl, Or.inl rfl⟩
  · have hcand : jpegCandidate stem j = ⟨stem ++ " (" ++ toString j ++ ")", ".jpg"⟩ := by
      unfold jpegCandidate
      rw [if_neg hj]
    rw [hcand] at h1 ⊢
    exact ⟨h1, rfl, Or.inr ⟨j, by omega, rfl⟩⟩

/-! Specifications of the two codec adapters. -/

theorem external_png_eq (O : Oracles) (fs : FS) (p : Pth) (c : Content)
    (hc : fsGet fs p = some c) :
    compress_with_external O fs p ".png" =
      match convert_png_to_jpeg O fs p c with
      | none => .ok ⟨false, p, fs, [Ev.pngOpen p]⟩
      | some (np, cj, fs1) =>
        if cj.sz ≤ TARGET_SIZE then .ok ⟨true, np, fs1, [Ev.pngOpen p]⟩
        else
          .ok (ladderCommit (O.extEnc ".jpg" cj) fs1 np cj.sz (O.hasExif c)
            O.injectSave Ev.extTool [Ev.pngOpen p]) := by
  simp [compress_with_external, hc]

theorem external_jpg_eq (O : Oracles) (fs : FS) (p : Pth) (c : Content)
    (ext0 : String) (hc : fsGet fs p = some c)
    (hjj : ext0 = ".jpg" ∨ ext0 = ".jpeg") :
    compress_with_external O fs p ext0 =
      .ok (ladderCommit (O.extEnc ext0 c) fs p c.sz (O.hasExif c)
        O.injectSave Ev.extTool []) := by
  have hne : ext0 ≠ ".png" := by
    rcases hjj with h | h <;> subst h <;> decide
  simp only [compress_with_external, hc]
  rw [if_neg hne, if_pos hjj]

theorem pillow_ne_error (O : Oracles) (fs : FS) (p : Pth) (c : Content)
    (hc : fsGet fs p = some c) :
    ∀ e, compress_with_pillow O fs p ≠ .error e := by
  intro e
  simp [compress_with_pillow, hc]

theorem external_ne_error (O : Oracles) (fs : FS) (p : Pth) (c : Content)
    (ext0 : String) (hc : fsGet fs p = some c) :
    ∀ e, compress_with_external O fs p ext0 ≠ .error e := by
  intro e
  simp only [compress_with_external, hc]
  by_cases h1 : ext0 = ".png"
  · rw [if_pos h1]
    rcases convert_png_to_jpeg O fs p c with _ | ⟨np, cj, fs1⟩
    · simp
    · dsimp only
      split <;> simp
  · rw [if_neg h1]
    by_cases h2 : ext0 = ".jpg" ∨ ext0 = ".jpeg"
    · rw [if_pos h2]; simp
    · rw [if_neg h2]
      by_cases h3 : ext0 = ".webp"
      · rw [if_pos h3]; simp
      · rw [if_neg h3]; simp

/-- The fallback adapter keeps the path, leaves the tree unchanged on
failure, commits a strictly smaller candidate on success (modulo the
unchecked exif reinjection), and its events are the PIL saves of one
ladder run. -/
theorem pillow_spec (O : Oracles) (fs : FS) (p : Pth) (c : Content) (r : AdRes)
    (hc : fsGet fs p = some c) (h : compress_with_pillow O fs p = .ok r) :
    r.path = p ∧
    r.evs = (ladderGo (O.pilEnc c) 50 5 8 85 none).2.map Ev.pilSave ∧
    (r.ok = false → r.fs = fs) ∧
    (r.ok = true → ∃ cL, cL.sz < c.sz ∧
      r.fs = fsSet fs p (if O.hasExif c then O.injectSave cL else cL)) := by
  simp only [compress_with_pillow, hc, Except.ok.injEq] at h
  subst h
  refine ⟨ladderCommit_path _ _ _ _ _ _ _ _, ?_, ?_, ?_⟩
  · rw [ladderCommit_evs]
    simp
  · intro hok
    exact ladderCommit_not_ok _ _ _ _ _ _ _ _ hok
  · intro hok
    exact ladderCommit_ok _ _ _ _ _ _ _ _ hok

/-- The external adapter on a non-png input keeps the path, leaves the
tree unchanged on failure, and commits a strictly smaller candidate on
success (modulo the unchecked exif reinjection). -/
theorem external_nonpng_spec (O : Oracles) (fs : FS) (p : Pth) (c : Content)
    (ext0 : String) (r : AdRes) (hp : ext0 ≠ ".png") (hc : fsGet fs p = some c)
    (h : compress_with_external O fs p ext0 = .ok r) :
    r.path = p ∧
    (r.ok = false → r.fs = fs) ∧
    (r.ok = true → ∃ cL, cL.sz < c.sz ∧
      r.fs = fsSet fs p (if O.hasExif c then O.injectSave cL else cL)) := by
  simp only [compress_with_external, hc, if_neg hp] at h
  by_cases h2 : ext0 = ".jpg" ∨ ext0 = ".jpeg"
  · rw [if_pos h2] at h
    simp only [Except.ok.injEq] at h
    subst h
    refine ⟨ladderCommit_path _ _ _ _ _ _ _ _, ?_, ?_⟩
    · intro hok
      exact ladderCommit_not_ok _ _ _ _ _ _ _ _ hok
    · intro hok
      exact ladderCommit_ok _ _ _ _ _ _ _ _ hok
  · rw [if_neg h2] at h
    by_cases h3 : ext0 = ".webp"
    · rw [if_pos h3] at h
      simp only [Except.ok.injEq] at h
      subst h
      refine ⟨ladderCommit_path _ _ _ _ _ _ _ _, ?_, ?_⟩
      · intro hok
        exact ladderCommit_not_ok _ _ _ _ _ _ _ _ hok
      · intro hok
        exact ladderCommit_ok _ _ _ _ _ _ _ _ hok
    · rw [if_neg h3] at h
      simp only [Except.ok.injEq] at h
      subst h
      refine ⟨rfl, fun _ => rfl, fun hok => ?_⟩
      simp at hok

/-- Components of a successful png conversion. -/
theorem convert_spec (O : Oracles) (fs : FS) (p : Pth) (c : Content)
    (np : Pth) (cj : Content) (fs1 : FS)
    (h : convert_png_to_jpeg O fs p c = some (np, cj, fs1)) :
    freshJpeg fs p.stem = some np ∧ O.pngConv c = some cj ∧
      fs1 = fsDel (fsSet fs np cj) p := by
  unfold convert_png_to_jpeg at h
  rcases hf : freshJpeg fs p.stem with _ | np'
  · rw [hf] at h
    simp at h
  · rw [hf] at h
    rcases hpc : O.pngConv c with _ | cj'
    · rw [hpc] at h
      simp at h
    · rw [hpc] at h
      simp only [Option.some.injEq, Prod.mk.injEq] at h
      obtain ⟨h1, h2, h3⟩ := h
      subst h1
      subst h2
      exact ⟨rfl, rfl, h3.symm⟩

/-- A successfully converted png leaves the tree with the original path
gone and the converted jpeg at the fresh sibling path. -/
theorem convert_fs (O : Oracles) (fs : FS) (p : Pth) (c : Content)
    (np : Pth) (cj : Content) (fs1 : FS) (hc : fsGet fs p = some c)
    (h : convert_png_to_jpeg O fs p c = some (np, cj, fs1)) :
    np ≠ p ∧ fsGet fs np = none ∧ fsGet fs1 p = none ∧ fsGet fs1 np = some cj := by
  obtain ⟨hf, _, hfs1⟩ := convert_spec O fs p c np cj fs1 h
  have hfresh := (freshJpeg_spec fs p.stem np hf).1
  have hnpne : np ≠ p := by
    intro hcontra
    rw [hcontra, hc] at hfresh
    simp at hfresh
  refine ⟨hnpne, hfresh, ?_, ?_⟩
  · rw [hfs1, fsGet_fsDel_self]
  · rw [hfs1, fsGet_fsDel_ne _ _ _ hnpne, fsGet_fsSet_self]

/-- A successful adapter call always leaves a readable file at the path it
reports, whatever the input extension. -/
theorem external_ok_some (O : Oracles) (fs : FS) (p : Pth) (c : Content)
    (ext0 : String) (r : AdRes) (hc : fsGet fs p = some c)
    (h : compress_with_external O fs p ext0 = .ok r) (hok : r.ok = true) :
    ∃ cN, fsGet r.fs r.path = some cN := by
  by_cases hp : ext0 = ".png"
  · subst hp
    rw [external_png_eq O fs p c hc] at h
    rcases hcv : convert_png_to_jpeg O fs p c with _ | ⟨np, cj, fs1⟩
    · rw [hcv] at h
      simp only [Except.ok.injEq] at h
      subst h
      simp at hok
    · rw [hcv] at h
      obtain ⟨hnpne, _, _, hfs1np⟩ := convert_fs O fs p c np cj fs1 hc hcv
      dsimp only at h
      by_cases hcj : cj.sz ≤ TARGET_SIZE
      · rw [if_pos hcj] at h
        simp only [Except.ok.injEq] at h
        subst h
        exact ⟨cj, hfs1np⟩
      · rw [if_neg hcj] at h
        simp only [Except.ok.injEq] at h
        subst h
        rcases ladderCommit_ok _ _ _ _ _ _ _ _ hok with ⟨cL, _, hfsr⟩
        rw [hfsr, ladderCommit_path, fsGet_fsSet_self]
        exact ⟨_, rfl⟩
  · rcases external_nonpng_spec O fs p c ext0 r hp hc h with ⟨hpath, _, hoks⟩
    rcases hoks hok with ⟨cL, _, hfsr⟩
    rw [hpath, hfsr, fsGet_fsSet_self]
    exact ⟨_, rfl⟩

theorem pillow_ok_some (O : Oracles) (fs : FS) (p : Pth) (c : Content)
    (r : AdRes) (hc : fsGet fs p = some c)
    (h : compress_with_pillow O fs p = .ok r) (hok : r.ok = true) :
    ∃ cN, fsGet r.fs r.path = some cN := by
  rcases pillow_spec O fs p c r hc h with ⟨hpath, _, _, hoks⟩
  rcases hoks hok with ⟨cL, _, hfsr⟩
  rw [hpath, hfsr, fsGet_fsSet_self]
  exact ⟨_, rfl⟩

/-! Facts about the orchestrator success path and per-file branches. -/

theorem successCommit_spec (st : St) (r : AdRes) (evs : List Ev) (cNew : Content)
    (h : fsGet r.fs r.path = some cNew) :
    (successCommit st r evs).1.fs = r.fs ∧
    (successCommit st r evs).1.stats.processed = st.stats.processed + 1 ∧
    (successCommit st r evs).1.stats.skipped = st.stats.skipped ∧
    (successCommit st r evs).1.stats.skippedSize = st.stats.skippedSize ∧
    (successCommit st r evs).1.stats.errors = st.stats.errors ∧
    (successCommit st r evs).1.confirmed = file_hash cNew :: st.confirmed ∧
    (successCommit st r evs).2 = evs ∧
    ∃ l', dbLookup (successCommit st r evs).1.db (file_hash cNew) = some l' ∧
      r.path ∈ l' := by
  rcases hdb : dbLookup st.db (file_hash cNew) with _ | l
  · have heq : successCommit st r evs =
        ({ st with fs := r.fs, db := st.db ++ [(file_hash cNew, [r.path])],
                   confirmed := file_hash cNew :: st.confirmed,
                   stats := { st.stats with
                     processed := st.stats.processed + 1 } }, evs) := by
      simp [successCommit, h, hdb]
    rw [heq]
    refine ⟨rfl, rfl, rfl, rfl, rfl, rfl, rfl, ⟨[r.path], ?_, by simp⟩⟩
    show dbLookup (st.db ++ [(file_hash cNew, [r.path])]) (file_hash cNew) =
      some [r.path]
    rw [dbLookup_append st.db _ _ _ hdb, if_pos rfl]
  · have heq : successCommit st r evs =
        ({ st with fs := r.fs,
                   db := dbSet st.db (file_hash cNew) (addPath r.path l),
                   confirmed := file_hash cNew :: st.confirmed,
                   stats := { st.stats with
                     processed := st.stats.processed + 1 } }, evs) := by
      simp [successCommit, h, hdb]
    rw [heq]
    exact ⟨rfl, rfl, rfl, rfl, rfl, rfl, rfl,
      ⟨addPath r.path l, dbLookup_dbSet_self _ _ _, addPath_self_mem _ _⟩⟩

theorem successCommit_none (st : St) (r : AdRes) (evs : List Ev)
    (h : fsGet r.fs r.path = none) :
    (successCommit st r evs).1.stats.processed = st.stats.processed ∧
    (successCommit st r evs).1.stats.errors = st.stats.errors + 1 := by
  simp [successCommit, h]

theorem compress_image_vanished (O : Oracles) (st : St) (p : Pth)
    (h : fsGet st.fs p = none) :
    compress_image O st p = (st, []) := by
  simp [compress_image, h]

theorem compress_image_small (O : Oracles) (st : St) (p : Pth) (c : Content)
    (hc : fsGet st.fs p = some c) (hsm : c.sz < MIN_SIZE) :
    compress_image O st p =
      ({ st with confirmed := file_hash c :: st.confirmed,
                 stats := { st.stats with
                   skippedSize := st.stats.skippedSize + 1 } },
       [Ev.hashed p]) := by
  simp [compress_image, hc, hsm]

theorem compress_image_dup (O : Oracles) (st : St) (p : Pth) (c : Content)
    (l : List Pth) (hc : fsGet st.fs p = some c) (hsm : ¬ c.sz < MIN_SIZE)
    (hdb : dbLookup st.db (file_hash c) = some l) :
    compress_image O st p =
      ({ st with db := if p ∈ l then st.db else dbSet st.db (file_hash c) (l ++ [p]),
                 confirmed := file_hash c :: st.confirmed,
                 stats := { st.stats with skipped := st.stats.skipped + 1 } },
       [Ev.hashed p]) := by
  simp [compress_image, hc, hsm, hdb]

/-- On a store miss, the per-file pipeline ends in exactly one of four
ways: external success, external failure then fallback success, both
adapters failing, or the fallback raising on a vanished path; this names
the final state in each case. -/
theorem compress_image_miss_cases (O : Oracles) (st : St) (p : Pth) (c : Content)
    (hc : fsGet st.fs p = some c) (hsm : ¬ c.sz < MIN_SIZE)
    (hdb : dbLookup st.db (file_hash c) = none) :
    (∃ r1, compress_with_external O st.fs p p.ext = .ok r1 ∧ r1.ok = true ∧
       compress_image O st p = successCommit st r1 ([Ev.hashed p] ++ r1.evs)) ∨
    (∃ r1 r2, compress_with_external O st.fs p p.ext = .ok r1 ∧ r1.ok = false ∧
       compress_with_pillow O r1.fs p = .ok r2 ∧ r2.ok = true ∧
       compress_image O st p = successCommit st r2 ([Ev.hashed p] ++ r1.evs ++ r2.evs)) ∨
    (∃ r1 r2, compress_with_external O st.fs p p.ext = .ok r1 ∧ r1.ok = false ∧
       compress_with_pillow O r1.fs p = .ok r2 ∧ r2.ok = false ∧
       compress_image O st p =
         ({ st with fs := r2.fs, confirmed := file_hash c :: st.confirmed,
                    stats := { st.stats with errors := st.stats.errors + 1 } },
          [Ev.hashed p] ++ r1.evs ++ r2.evs)) ∨
    (∃ r1, compress_with_external O st.fs p p.ext = .ok r1 ∧ r1.ok = false ∧
       fsGet r1.fs p = none ∧
       compress_image O st p =
         ({ st with fs := r1.fs,
                    stats := { st.stats with errors := st.stats.errors + 1 } },
          [Ev.hashed p] ++ r1.evs)) := by
  have hbody : compress_image O st p =
      (match compress_with_external O st.fs p p.ext with
       | .error _ =>
         ({ st with stats := { st.stats with errors := st.stats.errors + 1 } },
          [Ev.hashed p])
       | .ok r1 =>
         if r1.ok then
           successCommit st r1 ([Ev.hashed p] ++ r1.evs)
         else
           match compress_with_pillow O r1.fs p with
           | .error _ =>
             ({ st with fs := r1.fs,
                        stats := { st.stats with errors := st.stats.errors + 1 } },
              [Ev.hashed p] ++ r1.evs)
           | .ok r2 =>
             if r2.ok then
               successCommit st r2 ([Ev.hashed p] ++ r1.evs ++ r2.evs)
             else
               ({ st with fs := r2.fs, confirmed := file_hash c :: st.confirmed,
                          stats := { st.stats with errors := st.stats.errors + 1 } },
                [Ev.hashed p] ++ r1.evs ++ r2.evs)) := by
    simp [compress_image, hc, hsm, hdb]
  rcases hx : compress_with_external O st.fs p p.ext with e | r1
  · exact absurd hx (external_ne_error O st.fs p c p.ext hc e)
  · rw [hx] at hbody
    dsimp only at hbody
    by_cases hok1 : r1.ok
    · rw [if_pos hok1] at hbody
      exact Or.inl ⟨r1, rfl, hok1, hbody⟩
    · rw [if_neg hok1] at hbody
      rcases hpil : compress_with_pillow O r1.fs p with e | r2
      · rw [hpil] at hbody
        dsimp only at hbody
        have hmiss : fsGet r1.fs p = none := by
          rcases hget : fsGet r1.fs p with _ | cc
          · rfl
          · exact absurd hpil (pillow_ne_error O r1.fs p cc hget e)
        exact Or.inr (Or.inr (Or.inr ⟨r1, rfl, Bool.eq_false_iff.mpr hok1, hmiss, hbody⟩))
      · rw [hpil] at hbody
        dsimp only at hbody
        by_cases hok2 : r2.ok
        · rw [if_pos hok2] at hbody
          exact Or.inr (Or.inl ⟨r1, r2, rfl, Bool.eq_false_iff.mpr hok1, hpil, hok2, hbody⟩)
        · rw [if_neg hok2] at hbody
          exact Or.inr (Or.inr (Or.inl ⟨r1, r2, rfl, Bool.eq_false_iff.mpr hok1, hpil,
            Bool.eq_false_iff.mpr hok2, hbody⟩))

/-! Claim C1. -/

/-- C1, counterexample.  First scenario: a 3 MiB a.png is converted to a
5 MiB jpeg, the ladder then commits a 4 MiB candidate (strictly smaller
than the rebased 5 MiB baseline of lines 149-151), and the run counts the
file processed although the committed file is larger than the 3 MiB
original.  Second scenario: a 3 MiB a.jpg carrying exif is compressed to
1 MiB, but the exif reinjection re-save of lines 206-207 rewrites the
candidate to 4 MiB after the strict-shrink check already passed, and the
4 MiB file is committed and counted processed. -/
theorem C1_counterexample :
    ((compress_image oraclePngGrow stPngA pngA).1.stats.processed = 1 ∧
     fsGet stPngA.fs pngA = some ⟨3 * MB, 0⟩ ∧
     fsGet (compress_image oraclePngGrow stPngA pngA).1.fs jpgA = some ⟨4 * MB, 2⟩ ∧
     3 * MB < 4 * MB) ∧
    ((compress_image oracleExifGrow stJpgA jpgA).1.stats.processed = 1 ∧
     fsGet stJpgA.fs jpgA = some ⟨3 * MB, 0⟩ ∧
     fsGet (compress_image oracleExifGrow stJpgA jpgA).1.fs jpgA = some ⟨4 * MB, 9⟩ ∧
     3 * MB < 4 * MB) := by
  decide

/-- C1, amended: for a non-png input whose content carries no exif blob, a
file the run counts as processed is committed strictly smaller than the
original.  (For png inputs the strict-shrink baseline is the converted
jpeg, or only the ceiling when conversion alone suffices, and for inputs
with exif the reinjection re-save is committed without a size re-check, so
in those two cases the committed file can be at least as large as the
original.) -/
theorem C1_amended (O : Oracles) (st : St) (p : Pth) (c : Content)
    (hp : p.ext ≠ ".png") (hc : fsGet st.fs p = some c)
    (hex : O.hasExif c = false)
    (hsucc : (compress_image O st p).1.stats.processed = st.stats.processed + 1) :
    ∃ c', fsGet (compress_image O st p).1.fs p = some c' ∧ c'.sz < c.sz := by
  by_cases hsm : c.sz < MIN_SIZE
  · rw [compress_image_small O st p c hc hsm] at hsucc
    simp at hsucc
  · rcases hdb : dbLookup st.db (file_hash c) with _ | l
    · rcases compress_image_miss_cases O st p c hc hsm hdb with
        ⟨r1, hx, hok, heq⟩ | ⟨r1, r2, hx, hok1, hpil, hok2, heq⟩ |
        ⟨r1, r2, hx, hok1, hpil, hok2, heq⟩ | ⟨r1, hx, hok1, hmiss, heq⟩
      · obtain ⟨hpath, _, hoks⟩ := external_nonpng_spec O st.fs p c p.ext r1 hp hc hx
        obtain ⟨cL, hlt, hfs⟩ := hoks hok
        simp only [hex, Bool.false_eq_true, if_false] at hfs
        have hget : fsGet r1.fs r1.path = some cL := by
          rw [hpath, hfs, fsGet_fsSet_self]
        obtain ⟨hfs', _, _, _, _, _, _, _⟩ :=
          successCommit_spec st r1 ([Ev.hashed p] ++ r1.evs) cL hget
        refine ⟨cL, ?_, hlt⟩
        rw [heq, hfs', hfs, fsGet_fsSet_self]
      · have hr1fs : r1.fs = st.fs :=
          (external_nonpng_spec O st.fs p c p.ext r1 hp hc hx).2.1 hok1
        have hcp : fsGet r1.fs p = some c := by rw [hr1fs]; exact hc
        obtain ⟨hpath, _, _, hoks⟩ := pillow_spec O r1.fs p c r2 hcp hpil
        obtain ⟨cL, hlt, hfs⟩ := hoks hok2
        simp only [hex, Bool.false_eq_true, if_false] at hfs
        have hget : fsGet r2.fs r2.path = some cL := by
          rw [hpath, hfs, fsGet_fsSet_self]
        obtain ⟨hfs', _, _, _, _, _, _, _⟩ :=
          successCommit_spec st r2 ([Ev.hashed p] ++ r1.evs ++ r2.evs) cL hget
        refine ⟨cL, ?_, hlt⟩
        rw [heq, hfs', hfs, fsGet_fsSet_self]
      · rw [heq] at hsucc
        simp at hsucc
      · rw [heq] at hsucc
        simp at hsucc
    · rw [compress_image_dup O st p c l hc hsm hdb] at hsucc
      simp at hsucc

/-- C1, witness: a plain 3 MiB jpg without exif, compressed by the
deterministic shrinking oracle, is processed and ends strictly smaller. -/
theorem C1_witness :
    ∃ c', fsGet (compress_image oracleShrink stJpgA jpgA).1.fs jpgA = some c' ∧
      c'.sz < (⟨3 * MB, 0⟩ : Content).sz :=
  C1_amended oracleShrink stJpgA jpgA ⟨3 * MB, 0⟩ (by decide) (by decide)
    (by decide) (by decide)

/-! Claim C2. -/

/-- C2, counterexample: a 3 MiB a.png whose conversion succeeds (5 MiB
jpeg) but whose ladder never produces a candidate smaller than the
converted file is counted errored, yet the file at the original a.png path
is gone, deleted by convert_png_to_jpeg on line 120. -/
theorem C2_counterexample :
    (compress_image oraclePngStuck stPngA pngA).1.stats.errors = 1 ∧
    fsGet stPngA.fs pngA = some ⟨3 * MB, 0⟩ ∧
    fsGet (compress_image oraclePngStuck stPngA pngA).1.fs pngA = none := by
  decide

/-- C2, amended: for a non-png input, when both adapters run and fail the
outcome is counted errored and the original file is left untouched at its
original path with its original bytes.  (A png whose conversion succeeded
before the adapters failed has already lost the file at its original
path.) -/
theorem C2_amended (O : Oracles) (st : St) (p : Pth) (c : Content) (r1 r2 : AdRes)
    (hp : p.ext ≠ ".png") (hc : fsGet st.fs p = some c)
    (hsm : ¬ c.sz < MIN_SIZE) (hdb : dbLookup st.db (file_hash c) = none)
    (h1 : compress_with_external O st.fs p p.ext = .ok r1) (h1f : r1.ok = false)
    (h2 : compress_with_pillow O st.fs p = .ok r2) (h2f : r2.ok = false) :
    (compress_image O st p).1.stats.errors = st.stats.errors + 1 ∧
    (compress_image O st p).1.fs = st.fs ∧
    fsGet (compress_image O st p).1.fs p = some c ∧
    file_hash c ∈ (compress_image O st p).1.confirmed := by
  have hr1fs : r1.fs = st.fs :=
    (external_nonpng_spec O st.fs p c p.ext r1 hp hc h1).2.1 h1f
  have hr2fs : r2.fs = st.fs :=
    (pillow_spec O st.fs p c r2 hc h2).2.2.1 h2f
  rcases compress_image_miss_cases O st p c hc hsm hdb with
    ⟨r1', hx, hok, heq⟩ | ⟨r1', r2', hx, hok1, hpil, hok2, heq⟩ |
    ⟨r1', r2', hx, hok1, hpil, hok2, heq⟩ | ⟨r1', hx, hok1, hmiss, heq⟩
  · obtain rfl : r1 = r1' := by
      have h12 := h1.symm.trans hx
      injection h12
    rw [hok] at h1f
    cases h1f
  · obtain rfl : r1 = r1' := by
      have h12 := h1.symm.trans hx
      injection h12
    rw [hr1fs] at hpil
    obtain rfl : r2 = r2' := by
      have h22 := h2.symm.trans hpil
      injection h22
    rw [hok2] at h2f
    cases h2f
  · obtain rfl : r1 = r1' := by
      have h12 := h1.symm.trans hx
      injection h12
    rw [hr1fs] at hpil
    obtain rfl : r2 = r2' := by
      have h22 := h2.symm.trans hpil
      injection h22
    rw [heq]
    refine ⟨rfl, hr2fs, ?_, List.mem_cons_self _ _⟩
    show fsGet r2.fs p = some c
    rw [hr2fs]
    exact hc
  · obtain rfl : r1 = r1' := by
      have h12 := h1.symm.trans hx
      injection h12
    rw [hr1fs, hc] at hmiss
    cases hmiss

/-- C2, witness: a 3 MiB jpg on which the external tool only reproduces
the original size and the fallback only inflates is counted errored and
left byte-identical at its path. -/
theorem C2_witness :
    (compress_image oracleNotSmaller stJpgA jpgA).1.stats.errors =
      stJpgA.stats.errors + 1 ∧
    (compress_image oracleNotSmaller stJpgA jpgA).1.fs = stJpgA.fs ∧
    fsGet (compress_image oracleNotSmaller stJpgA jpgA).1.fs jpgA =
      some ⟨3 * MB, 0⟩ ∧
    file_hash ⟨3 * MB, 0⟩ ∈ (compress_image oracleNotSmaller stJpgA jpgA).1.confirmed :=
  C2_amended oracleNotSmaller stJpgA jpgA ⟨3 * MB, 0⟩
    ⟨false, jpgA, stJpgA.fs,
      [Ev.extTool 85, Ev.extTool 80, Ev.extTool 75, Ev.extTool 70,
       Ev.extTool 65, Ev.extTool 60, Ev.extTool 55, Ev.extTool 50]⟩
    ⟨false, jpgA, stJpgA.fs,
      [Ev.pilSave 85, Ev.pilSave 80, Ev.pilSave 75, Ev.pilSave 70,
       Ev.pilSave 65, Ev.pilSave 60, Ev.pilSave 55, Ev.pilSave 50]⟩
    (by decide) (by decide) (by decide) (by decide) (by rfl) (by rfl)
    (by rfl) (by rfl)

/-! Claim C3. -/

/-- C3, counterexample: a 500 KiB file is counted skipped-small and no
encoder touches it, but its content hash is computed first (line 268 runs
before the size check of line 270) and is even added to the confirmed
set, contradicting the claim that the skip happens without hashing. -/
theorem C3_counterexample :
    (compress_image oracleNone stSmall smallJpg).1.stats.skippedSize = 1 ∧
    (compress_image oracleNone stSmall smallJpg).2 = [Ev.hashed smallJpg] ∧
    file_hash ⟨500 * 1024, 7⟩ ∈ (compress_image oracleNone stSmall smallJpg).1.confirmed := by
  decide

/-- C3, amended: a file below the 2 MiB floor is counted skipped-small
before any store lookup and before any encoder or conversion runs (its
event trace is the single hash event), but its content hash is computed
first and recorded in the confirmed set; tree and store are untouched. -/
theorem C3_amended (O : Oracles) (st : St) (p : Pth) (c : Content)
    (hc : fsGet st.fs p = some c) (hsm : c.sz < MIN_SIZE) :
    (compress_image O st p).1.stats.skippedSize = st.stats.skippedSize + 1 ∧
    (compress_image O st p).2 = [Ev.hashed p] ∧
    (compress_image O st p).1.confirmed = file_hash c :: st.confirmed ∧
    (compress_image O st p).1.fs = st.fs ∧
    (compress_image O st p).1.db = st.db := by
  rw [compress_image_small O st p c hc hsm]
  exact ⟨rfl, rfl, rfl, rfl, rfl⟩

/-- C3, witness: the 500 KiB s.jpg instantiates the amended claim. -/
theorem C3_witness :
    (compress_image oracleNone stSmall smallJpg).1.stats.skippedSize =
      stSmall.stats.skippedSize + 1 ∧
    (compress_image oracleNone stSmall smallJpg).2 = [Ev.hashed smallJpg] ∧
    (compress_image oracleNone stSmall smallJpg).1.confirmed =
      file_hash ⟨500 * 1024, 7⟩ :: stSmall.confirmed ∧
    (compress_image oracleNone stSmall smallJpg).1.fs = stSmall.fs ∧
    (compress_image oracleNone stSmall smallJpg).1.db = stSmall.db :=
  C3_amended oracleNone stSmall smallJpg ⟨500 * 1024, 7⟩ (by decide) (by decide)

/-! Claim C4. -/

/-- C4, counterexample.  First two conjuncts: with the tool binaries
absent (every subprocess raises) the external adapter returns exactly the
same falsy result shape as when the tool runs through the whole ladder and
merely fails to produce a smaller file: there is no distinct indeterminate
signal, since compress_with_external never returns None despite its
Optional annotation.  Last two conjuncts: in the ran-and-failed run, the
fallback adapter is invoked anyway (PIL save events follow the external
tool events), contradicting that the fallback runs only on tool
absence. -/
theorem C4_counterexample :
    compress_with_external oracleNone stJpgA.fs jpgA ".jpg" =
      .ok ⟨false, jpgA, stJpgA.fs, [Ev.extTool 85]⟩ ∧
    compress_with_external oracleNotSmaller stJpgA.fs jpgA ".jpg" =
      .ok ⟨false, jpgA, stJpgA.fs,
        [Ev.extTool 85, Ev.extTool 80, Ev.extTool 75, Ev.extTool 70,
         Ev.extTool 65, Ev.extTool 60, Ev.extTool 55, Ev.extTool 50]⟩ ∧
    Ev.extTool 85 ∈ (compress_image oracleNotSmaller stJpgA jpgA).2 ∧
    Ev.pilSave 85 ∈ (compress_image oracleNotSmaller stJpgA jpgA).2 := by
  refine ⟨by rfl, by rfl, by decide, by decide⟩

/-- C4, amended: a missing tool binary produces the same failure signal
(ok equal to false after one raised invocation) as an external run that
produced no smaller output, and the PIL fallback is invoked on every
external failure, not only on tool absence.  (Tool absence is instead
handled up front: main aborts before processing when a required binary is
missing.) -/
theorem C4_amended (O Om : Oracles) (st : St) (p : Pth) (c : Content) (r1 : AdRes)
    (hm : ∀ ext1 c1 q1, Om.extEnc ext1 c1 q1 = none)
    (hc : fsGet st.fs p = some c) (hext : p.ext = ".jpg")
    (hsm : ¬ c.sz < MIN_SIZE) (hdb : dbLookup st.db (file_hash c) = none)
    (h1 : compress_with_external O st.fs p p.ext = .ok r1) (h1f : r1.ok = false) :
    compress_with_external Om st.fs p ".jpg" =
      .ok ⟨false, p, st.fs, [Ev.extTool 85]⟩ ∧
    Ev.pilSave 85 ∈ (compress_image O st p).2 := by
  have hp : p.ext ≠ ".png" := by rw [hext]; decide
  constructor
  · rw [external_jpg_eq Om st.fs p c ".jpg" hc (Or.inl rfl)]
    have hgo : ladderGo (Om.extEnc ".jpg" c) 50 5 8 85 none =
        (.raised none, [85]) := by
      simp [ladderGo, hm]
    simp [ladderCommit, hgo]
  · have hr1fs : r1.fs = st.fs :=
      (external_nonpng_spec O st.fs p c p.ext r1 hp hc h1).2.1 h1f
    rcases compress_image_miss_cases O st p c hc hsm hdb with
      ⟨r1', hx, hok, heq⟩ | ⟨r1', r2', hx, hok1, hpil, hok2, heq⟩ |
      ⟨r1', r2', hx, hok1, hpil, hok2, heq⟩ | ⟨r1', hx, hok1, hmiss, heq⟩
    · obtain rfl : r1 = r1' := by
        have h12 := h1.symm.trans hx
        injection h12
      rw [hok] at h1f
      cases h1f
    · obtain rfl : r1 = r1' := by
        have h12 := h1.symm.trans hx
        injection h12
      have hcp : fsGet r1.fs p = some c := by rw [hr1fs]; exact hc
      obtain ⟨_, hevs, _, _⟩ := pillow_spec O r1.fs p c r2' hcp hpil
      have h85 : Ev.pilSave 85 ∈ r2'.evs := by
        rw [hevs]
        exact List.mem_map_of_mem _
          (ladderGo_self_mem (O.pilEnc c) 50 5 7 85 none (by decide))
      obtain ⟨cN, hget⟩ := pillow_ok_some O r1.fs p c r2' hcp hpil hok2
      obtain ⟨_, _, _, _, _, _, hevs', _⟩ :=
        successCommit_spec st r2' ([Ev.hashed p] ++ r1.evs ++ r2'.evs) cN hget
      rw [heq, hevs']
      simp [h85]
    · obtain rfl : r1 = r1' := by
        have h12 := h1.symm.trans hx
        injection h12
      have hcp : fsGet r1.fs p = some c := by rw [hr1fs]; exact hc
      obtain ⟨_, hevs, _, _⟩ := pillow_spec O r1.fs p c r2' hcp hpil
      have h85 : Ev.pilSave 85 ∈ r2'.evs := by
        rw [hevs]
        exact List.mem_map_of_mem _
          (ladderGo_self_mem (O.pilEnc c) 50 5 7 85 none (by decide))
      rw [heq]
      simp [h85]
    · obtain rfl : r1 = r1' := by
        have h12 := h1.symm.trans hx
        injection h12
      rw [hr1fs, hc] at hmiss
      cases hmiss

/-- C4, witness: the stuck-external scenario instantiates the amended
claim against the missing-binary oracle. -/
theorem C4_witness :
    (compress_with_external oracleNone stJpgA.fs jpgA ".jpg" =
      .ok ⟨false, jpgA, stJpgA.fs, [Ev.extTool 85]⟩) ∧
    Ev.pilSave 85 ∈ (compress_image oracleNotSmaller stJpgA jpgA).2 :=
  C4_amended oracleNotSmaller oracleNone stJpgA jpgA ⟨3 * MB, 0⟩
    ⟨false, jpgA, stJpgA.fs,
      [Ev.extTool 85, Ev.extTool 80, Ev.extTool 75, Ev.extTool 70,
       Ev.extTool 65, Ev.extTool 60, Ev.extTool 55, Ev.extTool 50]⟩
    (fun _ _ _ => rfl) (by decide) (by decide) (by decide) (by decide)
    (by rfl) (by rfl)

/-! Claim C5. -/

/-- The per-file pipeline on a jpg whose first external invocation already
meets the ceiling and shrinks, spelled out as one equation. -/
theorem compress_jpg_success (O : Oracles) (st : St) (p : Pth) (c c' : Content)
    (he : p.ext = ".jpg") (hc : fsGet st.fs p = some c)
    (hsm : ¬ c.sz < MIN_SIZE) (hdb : dbLookup st.db (file_hash c) = none)
    (henc : O.extEnc ".jpg" c 85 = some c') (hle : c'.sz ≤ TARGET_SIZE)
    (hlt : c'.sz < c.sz) (hex : O.hasExif c = false) :
    compress_image O st p =
      ({ st with fs := fsSet st.fs p c',
                 db := match dbLookup st.db (file_hash c') with
                       | some l => dbSet st.db (file_hash c') (addPath p l)
                       | none => st.db ++ [(file_hash c', [p])],
                 confirmed := file_hash c' :: st.confirmed,
                 stats := { st.stats with
                   processed := st.stats.processed + 1 } },
       [Ev.hashed p, Ev.extTool 85]) := by
  have hgo : ladderGo (O.extEnc ".jpg" c) 50 5 8 85 none =
      (.finished (some c'), [85]) := by
    simp [ladderGo, henc, hle]
  have hlc : ladderCommit (O.extEnc ".jpg" c) st.fs p c.sz (O.hasExif c)
      O.injectSave Ev.extTool [] =
      ⟨true, p, fsSet st.fs p c', [Ev.extTool 85]⟩ := by
    simp [ladderCommit, hgo, hlt, hex]
  have hxeq : compress_with_external O st.fs p p.ext =
      .ok ⟨true, p, fsSet st.fs p c', [Ev.extTool 85]⟩ := by
    rw [he, external_jpg_eq O st.fs p c ".jpg" hc (Or.inl rfl), hlc]
  have h1 : compress_image O st p =
      successCommit st ⟨true, p, fsSet st.fs p c', [Ev.extTool 85]⟩
        ([Ev.hashed p] ++ [Ev.extTool 85]) := by
    simp [compress_image, hc, hsm, hdb, hxeq]
  rw [h1]
  have hget : fsGet (fsSet st.fs p c') p = some c' := fsGet_fsSet_self _ _ _
  simp [successCommit, hget]

/-- C5, counterexample: two byte-identical 3 MiB files a.jpg and b.jpg,
both fresh to the store, are each re-encoded: the run counts two processed
files and zero skipped-duplicates, because the store only ever registers
the fingerprint of the committed compressed bytes, which the second file's
original-content lookup cannot hit.  (The single shared entry under the
compressed fingerprint does hold both paths.) -/
theorem C5_counterexample :
    (runAll oracleShrink stPair [jpgA, jpgB]).stats.processed = 2 ∧
    (runAll oracleShrink stPair [jpgA, jpgB]).stats.skipped = 0 ∧
    (runAll oracleShrink stPair [jpgA, jpgB]).db = [(⟨MB, 1⟩, [jpgA, jpgB])] ∧
    fsGet stPair.fs jpgA = fsGet stPair.fs jpgB := by
  decide

/-- C5, amended: two byte-identical compressible jpg files processed in
one run, in either order (the paths are universally quantified), are both
re-encoded and both counted processed, none skipped-duplicate; with the
deterministic encoder they end under exactly one new store entry, keyed by
the committed bytes' fingerprint, holding both committed paths.  A file is
counted skipped-duplicate precisely when its current fingerprint already
has an entry, and registering a fingerprint-path pair already present
leaves the store unchanged (final conjunct). -/
theorem C5_amended (O : Oracles) (st : St) (p1 p2 : Pth) (c c' : Content)
    (h12 : p1 ≠ p2) (he1 : p1.ext = ".jpg") (he2 : p2.ext = ".jpg")
    (hc1 : fsGet st.fs p1 = some c) (hc2 : fsGet st.fs p2 = some c)
    (hsm : ¬ c.sz < MIN_SIZE)
    (henc : O.extEnc ".jpg" c 85 = some c') (hle : c'.sz ≤ TARGET_SIZE)
    (hlt : c'.sz < c.sz) (hex : O.hasExif c = false)
    (hdb : dbLookup st.db (file_hash c) = none)
    (hdb' : dbLookup st.db (file_hash c') = none) :
    (runAll O st [p1, p2]).stats.processed = st.stats.processed + 2 ∧
    (runAll O st [p1, p2]).stats.skipped = st.stats.skipped ∧
    (runAll O st [p1, p2]).db = st.db ++ [(file_hash c', [p1, p2])] ∧
    (∀ (st' : St) (q : Pth) (cq : Content) (lq : List Pth),
       fsGet st'.fs q = some cq → ¬ cq.sz < MIN_SIZE →
       dbLookup st'.db (file_hash cq) = some lq → q ∈ lq →
       (compress_image O st' q).1.db = st'.db ∧
       (compress_image O st' q).1.stats.skipped = st'.stats.skipped + 1) := by
  have hne : file_hash c' ≠ file_hash c := by
    simp only [file_hash]
    intro hh
    rw [hh] at hlt
    exact lt_irrefl _ hlt
  have hrun : runAll O st [p1, p2] =
      (compress_image O (compress_image O st p1).1 p2).1 := by
    simp [runAll]
  have hst1 := compress_jpg_success O st p1 c c' he1 hc1 hsm hdb henc hle hlt hex
  rw [hdb'] at hst1
  set st1 : St :=
    { st with fs := fsSet st.fs p1 c',
              db := st.db ++ [(file_hash c', [p1])],
              confirmed := file_hash c' :: st.confirmed,
              stats := { st.stats with
                processed := st.stats.processed + 1 } } with hst1def
  have hst1' : (compress_image O st p1).1 = st1 := by rw [hst1]
  have hc2m : fsGet st1.fs p2 = some c := by
    rw [hst1def]
    show fsGet (fsSet st.fs p1 c') p2 = some c
    rw [fsGet_fsSet_ne _ _ _ _ (Ne.symm h12)]
    exact hc2
  have hdbm : dbLookup st1.db (file_hash c) = none := by
    rw [hst1def]
    show dbLookup (st.db ++ [(file_hash c', [p1])]) (file_hash c) = none
    rw [dbLookup_append st.db _ _ _ hdb, if_neg hne]
  have hst2 := compress_jpg_success O st1 p2 c c' he2 hc2m hsm hdbm henc hle hlt hex
  have hdb'm : dbLookup st1.db (file_hash c') = some [p1] := by
    rw [hst1def]
    show dbLookup (st.db ++ [(file_hash c', [p1])]) (file_hash c') = some [p1]
    rw [dbLookup_append st.db _ _ _ hdb', if_pos rfl]
  rw [hdb'm] at hst2
  have hadd : addPath p2 [p1] = [p1, p2] := by
    rw [addPath_of_not_mem]
    · rfl
    · simp [Ne.symm h12]
  have hdbset : dbSet st1.db (file_hash c') (addPath p2 [p1]) =
      st.db ++ [(file_hash c', [p1, p2])] := by
    rw [hadd, hst1def]
    show dbSet (st.db ++ [(file_hash c', [p1])]) (file_hash c') [p1, p2] =
      st.db ++ [(file_hash c', [p1, p2])]
    exact dbSet_append st.db _ _ _ hdb'
  refine ⟨?_, ?_, ?_, ?_⟩
  · rw [hrun, hst1', hst2]
  · rw [hrun, hst1', hst2]
  · rw [hrun, hst1', hst2]
    show dbSet st1.db (file_hash c') (addPath p2 [p1]) =
      st.db ++ [(file_hash c', [p1, p2])]
    exact hdbset
  · intro st' q cq lq hcq hsmq hdbq hmem
    rw [compress_image_dup O st' q cq lq hcq hsmq hdbq]
    exact ⟨by simp [hmem], rfl⟩

/-- C5, witness: the byte-identical pair a.jpg, b.jpg with the
deterministic shrinking oracle instantiates the amended claim. -/
theorem C5_witness :
    (runAll oracleShrink stPair [jpgA, jpgB]).stats.processed =
      stPair.stats.processed + 2 ∧
    (runAll oracleShrink stPair [jpgA, jpgB]).stats.skipped =
      stPair.stats.skipped ∧
    (runAll oracleShrink stPair [jpgA, jpgB]).db =
      stPair.db ++ [(file_hash ⟨MB, 1⟩, [jpgA, jpgB])] ∧
    (∀ (st' : St) (q : Pth) (cq : Content) (lq : List Pth),
       fsGet st'.fs q = some cq → ¬ cq.sz < MIN_SIZE →
       dbLookup st'.db (file_hash cq) = some lq → q ∈ lq →
       (compress_image oracleShrink st' q).1.db = st'.db ∧
       (compress_image oracleShrink st' q).1.stats.skipped =
         st'.stats.skipped + 1) :=
  C5_amended oracleShrink stPair jpgA jpgB ⟨3 * MB, 0⟩ ⟨MB, 1⟩
    (by decide) (by decide) (by decide) (by decide) (by decide) (by decide)
    (by decide) (by decide) (by decide) (by decide) (by decide) (by decide)

/-! Claim C6. -/

/-- C6: reconciliation drops exactly the paths that no longer exist or no
longer hash to the row's key; a row survives, rewritten to its surviving
subset, precisely when the subset is nonempty and the fingerprint was
confirmed during the run (first conjunct, an iff); every surviving row
denotes at least one existing, correctly hashing file (second conjunct);
and a confirmed row all of whose paths are still valid is retained
unchanged (third conjunct). -/
theorem C6_reconcile (fs : FS) (conf : List Content) (db : Db) :
    (∀ h l', (h, l') ∈ reconcile fs conf db ↔
       ∃ l, (h, l) ∈ db ∧ l' = validPaths fs h l ∧ l' ≠ [] ∧ h ∈ conf) ∧
    (∀ h l', (h, l') ∈ reconcile fs conf db →
       ∃ q, q ∈ l' ∧ ∃ c, fsGet fs q = some c ∧ file_hash c = h) ∧
    (∀ h l, (h, l) ∈ db → h ∈ conf → l ≠ [] →
       (∀ q, q ∈ l → ∃ c, fsGet fs q = some c ∧ file_hash c = h) →
       (h, l) ∈ reconcile fs conf db) := by
  have hchar : ∀ h l', (h, l') ∈ reconcile fs conf db ↔
      ∃ l, (h, l) ∈ db ∧ l' = validPaths fs h l ∧ l' ≠ [] ∧ h ∈ conf := by
    intro h l'
    constructor
    · intro hmem
      rcases List.mem_filterMap.mp hmem with ⟨⟨k, m⟩, hkm, hf⟩
      dsimp only at hf
      by_cases hcond : validPaths fs k m = [] ∨ k ∉ conf
      · rw [if_pos hcond] at hf
        cases hf
      · rw [if_neg hcond] at hf
        push_neg at hcond
        obtain ⟨hvne, hkc⟩ := hcond
        injection hf with hf2
        obtain ⟨hk, hl⟩ := Prod.mk.injEq _ _ _ _ |>.mp hf2
        subst hk
        exact ⟨m, hkm, hl.symm, by rw [← hl]; exact hvne, hkc⟩
    · rintro ⟨l, hl, hval, hne, hcf⟩
      apply List.mem_filterMap.mpr
      refine ⟨(h, l), hl, ?_⟩
      dsimp only
      rw [if_neg (show ¬ (validPaths fs h l = [] ∨ h ∉ conf) by
        push_neg
        exact ⟨by rw [← hval]; exact hne, hcf⟩)]
      rw [← hval]
  refine ⟨hchar, ?_, ?_⟩
  · intro h l' hmem
    obtain ⟨l, _, hval, hne, _⟩ := (hchar h l').mp hmem
    obtain ⟨q, hq⟩ := List.exists_mem_of_ne_nil l' hne
    refine ⟨q, hq, ?_⟩
    rw [hval] at hq
    unfold validPaths at hq
    have hp := (List.mem_filter.mp hq).2
    rcases hget : fsGet fs q with _ | cc
    · rw [hget] at hp
      cases hp
    · rw [hget] at hp
      exact ⟨cc, rfl, of_decide_eq_true hp⟩
  · intro h l hl hcf hne hvalid
    have hval : validPaths fs h l = l := by
      unfold validPaths
      apply List.filter_eq_self.mpr
      intro q hq
      obtain ⟨cc, hget, hhash⟩ := hvalid q hq
      rw [hget]
      exact decide_eq_true hhash
    exact (hchar h l).mpr ⟨l, hl, hval.symm, hne, hcf⟩

/-- C6, witness: a one-row store whose single path exists, hashes to the
key and was confirmed survives reconciliation unchanged. -/
theorem C6_witness :
    ((⟨MB, 1⟩ : Content), [jpgA]) ∈
      reconcile [(jpgA, ⟨MB, 1⟩)] [⟨MB, 1⟩] [(⟨MB, 1⟩, [jpgA])] :=
  (C6_reconcile [(jpgA, ⟨MB, 1⟩)] [⟨MB, 1⟩] [(⟨MB, 1⟩, [jpgA])]).2.2
    ⟨MB, 1⟩ [jpgA] (by decide) (by decide) (by decide)
    (fun q hq => by
      have hq2 : q = jpgA := List.mem_singleton.mp hq
      subst hq2
      exact ⟨⟨MB, 1⟩, by decide, by decide⟩)

/-! Claim C7. -/

/-- C7, counterexample: a 3 MiB a.png is converted (so the original path
is gone), the ladder fails against the converted baseline, and the
fallback then raises on the deleted original path; the catch-all handler
of lines 355-360 counts the file errored without confirming any
fingerprint, so the confirmed set stays empty although the outcome is a
counted failure. -/
theorem C7_counterexample :
    (compress_image oraclePngStuck stPngA pngA).1.stats.errors = 1 ∧
    (compress_image oraclePngStuck stPngA pngA).1.confirmed = [] := by
  decide

/-- C7, amended: for a non-png input, every per-file outcome -
skipped-small, skipped-duplicate, success and counted failure - leaves the
fingerprint of the file's current content at its path in the confirmed
set.  (For a png input whose conversion succeeded but whose compression
then failed, the pipeline ends in the exception handler, which counts an
error and confirms nothing.) -/
theorem C7_amended (O : Oracles) (st : St) (p : Pth) (c : Content)
    (hp : p.ext ≠ ".png") (hc : fsGet st.fs p = some c) :
    ∃ c', fsGet (compress_image O st p).1.fs p = some c' ∧
      file_hash c' ∈ (compress_image O st p).1.confirmed := by
  by_cases hsm : c.sz < MIN_SIZE
  · rw [compress_image_small O st p c hc hsm]
    exact ⟨c, hc, List.mem_cons_self _ _⟩
  · rcases hdb : dbLookup st.db (file_hash c) with _ | l
    · rcases compress_image_miss_cases O st p c hc hsm hdb with
        ⟨r1, hx, hok, heq⟩ | ⟨r1, r2, hx, hok1, hpil, hok2, heq⟩ |
        ⟨r1, r2, hx, hok1, hpil, hok2, heq⟩ | ⟨r1, hx, hok1, hmiss, heq⟩
      · obtain ⟨hpath, _, hoks⟩ := external_nonpng_spec O st.fs p c p.ext r1 hp hc hx
        obtain ⟨cL, _, hfs⟩ := hoks hok
        have hget : fsGet r1.fs r1.path =
            some (if O.hasExif c then O.injectSave cL else cL) := by
          rw [hpath, hfs, fsGet_fsSet_self]
        obtain ⟨hfs', _, _, _, _, hconf, _, _⟩ :=
          successCommit_spec st r1 ([Ev.hashed p] ++ r1.evs) _ hget
        refine ⟨if O.hasExif c then O.injectSave cL else cL, ?_, ?_⟩
        · rw [heq, hfs', hfs, fsGet_fsSet_self]
        · rw [heq, hconf]
          exact List.mem_cons_self _ _
      · have hr1fs : r1.fs = st.fs :=
          (external_nonpng_spec O st.fs p c p.ext r1 hp hc hx).2.1 hok1
        have hcp : fsGet r1.fs p = some c := by rw [hr1fs]; exact hc
        obtain ⟨hpath, _, _, hoks⟩ := pillow_spec O r1.fs p c r2 hcp hpil
        obtain ⟨cL, _, hfs⟩ := hoks hok2
        have hget : fsGet r2.fs r2.path =
            some (if O.hasExif c then O.injectSave cL else cL) := by
          rw [hpath, hfs, fsGet_fsSet_self]
        obtain ⟨hfs', _, _, _, _, hconf, _, _⟩ :=
          successCommit_spec st r2 ([Ev.hashed p] ++ r1.evs ++ r2.evs) _ hget
        refine ⟨if O.hasExif c then O.injectSave cL else cL, ?_, ?_⟩
        · rw [heq, hfs', hfs, fsGet_fsSet_self]
        · rw [heq, hconf]
          exact List.mem_cons_self _ _
      · have hr1fs : r1.fs = st.fs :=
          (external_nonpng_spec O st.fs p c p.ext r1 hp hc hx).2.1 hok1
        have hcp : fsGet r1.fs p = some c := by rw [hr1fs]; exact hc
        have hr2fs : r2.fs = r1.fs := (pillow_spec O r1.fs p c r2 hcp hpil).2.2.1 hok2
        rw [heq]
        refine ⟨c, ?_, List.mem_cons_self _ _⟩
        show fsGet r2.fs p = some c
        rw [hr2fs, hr1fs]
        exact hc
      · have hr1fs : r1.fs = st.fs :=
          (external_nonpng_spec O st.fs p c p.ext r1 hp hc hx).2.1 hok1
        rw [hr1fs, hc] at hmiss
        cases hmiss
    · rw [compress_image_dup O st p c l hc hsm hdb]
      exact ⟨c, hc, List.mem_cons_self _ _⟩

/-- C7, witness: the errored (not smaller) jpg scenario confirms the
original fingerprint. -/
theorem C7_witness :
    ∃ c', fsGet (compress_image oracleNotSmaller stJpgA jpgA).1.fs jpgA = some c' ∧
      file_hash c' ∈ (compress_image oracleNotSmaller stJpgA jpgA).1.confirmed :=
  C7_amended oracleNotSmaller stJpgA jpgA ⟨3 * MB, 0⟩ (by decide) (by decide)

/-! Claim C8. -/

/-- C8: the quality ladder, with any encoder, any floor of at least 1 and
any step of at least 1, invokes its encoder at most
(start - floor) / step + 1 times, every invoked quality is at least the
floor (the loop stops unconditionally below it), and the invoked
qualities descend arithmetically by the fixed step from the start; at the
pipeline's constants (start 85, floor 50, step 5) the bound is 8, and in
particular the fallback adapter records at most 8 PIL save invocations
per file. -/
theorem C8_ladder_bound :
    (∀ (enc : Nat → Option Content) (floorQ step fuel q : Nat)
       (tmp : Option Content), 1 ≤ floorQ → 1 ≤ step →
       (ladderGo enc floorQ step fuel q tmp).2.length ≤ (q - floorQ) / step + 1 ∧
       (∀ x ∈ (ladderGo enc floorQ step fuel q tmp).2, floorQ ≤ x) ∧
       (ladderGo enc floorQ step fuel q tmp).2 =
         (List.range (ladderGo enc floorQ step fuel q tmp).2.length).map
           (fun i => q - i * step)) ∧
    (∀ (enc : Nat → Option Content) (tmp : Option Content),
       (ladderGo enc 50 5 8 85 tmp).2.length ≤ 8) ∧
    (∀ (O : Oracles) (fs : FS) (p : Pth) (r : AdRes),
       compress_with_pillow O fs p = .ok r → r.evs.length ≤ 8) := by
  refine ⟨?_, ?_, ?_⟩
  · intro enc floorQ step fuel q tmp hf hs
    exact ⟨ladderGo_len_le enc floorQ step hf hs fuel q tmp,
      fun x hx => ladderGo_mem_floor enc floorQ step fuel q tmp x hx,
      ladderGo_arith enc floorQ step fuel q tmp⟩
  · intro enc tmp
    have h1 := ladderGo_len_le enc 50 5 (by decide) (by decide) 8 85 tmp
    simpa using h1
  · intro O fs p r h
    rcases hget : fsGet fs p with _ | c0
    · unfold compress_with_pillow at h
      rw [hget] at h
      cases h
    · unfold compress_with_pillow at h
      rw [hget] at h
      injection h with h2
      rw [← h2, ladderCommit_evs]
      simp only [List.nil_append, List.length_map]
      have h1 := ladderGo_len_le (O.pilEnc c0) 50 5 (by decide) (by decide) 8 85 none
      simpa using h1

/-- C8, witness: the always-raising encoder at the pipeline constants
instantiates the bound and the floor property. -/
theorem C8_witness :
    ((ladderGo (fun _ => none) 50 5 8 85 none).2.length ≤ (85 - 50) / 5 + 1) ∧
    (∀ x ∈ (ladderGo (fun _ => none) 50 5 8 85 none).2, 50 ≤ x) :=
  ⟨(C8_ladder_bound.1 (fun _ => none) 50 5 8 85 none (by decide) (by decide)).1,
   (C8_ladder_bound.1 (fun _ => none) 50 5 8 85 none (by decide) (by decide)).2.1⟩

/-! Claim C9. -/

/-- A confirmed row with at least one surviving path is still found under
its key after reconciliation, rewritten to its surviving subset. -/
theorem dbLookup_reconcile (fs : FS) (conf : List Content) (db : Db)
    (h : Content) (l : List Pth) (hdb : dbLookup db h = some l)
    (hconf : h ∈ conf) (hne : validPaths fs h l ≠ []) :
    dbLookup (reconcile fs conf db) h = some (validPaths fs h l) := by
  induction db with
  | nil => simp [dbLookup] at hdb
  | cons e rest ih =>
    obtain ⟨k, m⟩ := e
    by_cases hk : k = h
    · subst hk
      have hml : m = l := by
        have hh : dbLookup ((k, m) :: rest) k = some m := by
          simp [dbLookup]
        rw [hh] at hdb
        injection hdb
      subst hml
      unfold reconcile
      rw [List.filterMap_cons]
      dsimp only
      rw [if_neg (show ¬ (validPaths fs k m = [] ∨ k ∉ conf) by
        push_neg
        exact ⟨hne, hconf⟩)]
      simp [dbLookup]
    · simp only [dbLookup, if_neg hk] at hdb
      unfold reconcile at ih ⊢
      rw [List.filterMap_cons]
      dsimp only
      by_cases hcond : validPaths fs k m = [] ∨ k ∉ conf
      · rw [if_pos hcond]
        exact ih hdb
      · rw [if_neg hcond]
        simp only [dbLookup, if_neg hk]
        exact ih hdb

/-- C9, counterexample: a single 3 MiB a.jpg is processed in a first run
(compressed to 1 MiB and registered), the registered row survives
reconciliation, and the tree is unchanged between runs; yet in the second
run the file is skipped by the small-size check before the store is ever
consulted: it is counted skipped-small, not skipped-duplicate, so a
processed file need not hit a dedup-store entry in the second run. -/
theorem C9_counterexample :
    stAfterRun1.stats.processed = 1 ∧
    dbLookup stSecondRun.db (file_hash ⟨MB, 1⟩) = some [jpgA] ∧
    (compress_image oracleShrink stSecondRun jpgA).1.stats.skippedSize = 1 ∧
    (compress_image oracleShrink stSecondRun jpgA).1.stats.skipped = 0 ∧
    (compress_image oracleShrink stSecondRun jpgA).1.stats.processed = 0 := by
  decide

/-- C9, amended: a second pass over an unchanged file compresses nothing.
First conjunct: a file whose current content is below the floor or whose
current fingerprint is registered under its path is not re-encoded - the
processed counter and the tree are untouched and the only recorded event
is the hash.  Second conjunct: whenever a run counts a file processed, the
committed content's fingerprint is registered in the store under the
committed path and confirmed.  Third conjunct: such a registration
survives reconciliation.  Together: every file processed in a completed
first run satisfies the first conjunct's hypothesis at its committed path
in the second run, and is skipped there - by the small-size check when the
committed file is below 2 MiB, via the store entry otherwise - rather than
re-encoded. -/
theorem C9_amended (O : Oracles) :
    (∀ (st : St) (p : Pth) (c' : Content),
       fsGet st.fs p = some c' →
       (c'.sz < MIN_SIZE ∨
         ∃ l, dbLookup st.db (file_hash c') = some l ∧ p ∈ l) →
       (compress_image O st p).1.stats.processed = st.stats.processed ∧
       (compress_image O st p).1.fs = st.fs ∧
       (compress_image O st p).2 = [Ev.hashed p]) ∧
    (∀ (st : St) (p : Pth),
       (compress_image O st p).1.stats.processed = st.stats.processed + 1 →
       ∃ q cq l, fsGet (compress_image O st p).1.fs q = some cq ∧
         dbLookup (compress_image O st p).1.db (file_hash cq) = some l ∧
         q ∈ l ∧ file_hash cq ∈ (compress_image O st p).1.confirmed) ∧
    (∀ (st : St) (q : Pth) (cq : Content) (l : List Pth),
       fsGet st.fs q = some cq →
       dbLookup st.db (file_hash cq) = some l → q ∈ l →
       file_hash cq ∈ st.confirmed →
       dbLookup (reconcile st.fs st.confirmed st.db) (file_hash cq) =
         some (validPaths st.fs (file_hash cq) l) ∧
       q ∈ validPaths st.fs (file_hash cq) l) := by
  refine ⟨?_, ?_, ?_⟩
  · intro st p c' hget hcond
    rcases hcond with hsmall | ⟨l, hdb, hmem⟩
    · rw [compress_image_small O st p c' hget hsmall]
      exact ⟨rfl, rfl, rfl⟩
    · by_cases hsm : c'.sz < MIN_SIZE
      · rw [compress_image_small O st p c' hget hsm]
        exact ⟨rfl, rfl, rfl⟩
      · rw [compress_image_dup O st p c' l hget hsm hdb]
        exact ⟨rfl, rfl, rfl⟩
  · intro st p hsucc
    rcases hget : fsGet st.fs p with _ | c0
    · rw [compress_image_vanished O st p hget] at hsucc
      simp at hsucc
    · by_cases hsm : c0.sz < MIN_SIZE
      · rw [compress_image_small O st p c0 hget hsm] at hsucc
        simp at hsucc
      · rcases hdb : dbLookup st.db (file_hash c0) with _ | l0
        · rcases compress_image_miss_cases O st p c0 hget hsm hdb with
            ⟨r1, hx, hok, heq⟩ | ⟨r1, r2, hx, hok1, hpil, hok2, heq⟩ |
            ⟨r1, r2, hx, hok1, hpil, hok2, heq⟩ | ⟨r1, hx, hok1, hmiss, heq⟩
          · obtain ⟨cN, hgetN⟩ := external_ok_some O st.fs p c0 p.ext r1 hget hx hok
            obtain ⟨hfs', _, _, _, _, hconf, _, l', hlook, hmem⟩ :=
              successCommit_spec st r1 ([Ev.hashed p] ++ r1.evs) cN hgetN
            rw [heq]
            refine ⟨r1.path, cN, l', ?_, hlook, hmem, ?_⟩
            · rw [hfs']
              exact hgetN
            · rw [hconf]
              exact List.mem_cons_self _ _
          · rcases hgc : fsGet r1.fs p with _ | c1
            · exact absurd hpil (by
                unfold compress_with_pillow
                rw [hgc]
                simp)
            · obtain ⟨cN, hgetN⟩ := pillow_ok_some O r1.fs p c1 r2 hgc hpil hok2
              obtain ⟨hfs', _, _, _, _, hconf, _, l', hlook, hmem⟩ :=
                successCommit_spec st r2 ([Ev.hashed p] ++ r1.evs ++ r2.evs) cN hgetN
              rw [heq]
              refine ⟨r2.path, cN, l', ?_, hlook, hmem, ?_⟩
              · rw [hfs']
                exact hgetN
              · rw [hconf]
                exact List.mem_cons_self _ _
          · rw [heq] at hsucc
            simp at hsucc
          · rw [heq] at hsucc
            simp at hsucc
        · rw [compress_image_dup O st p c0 l0 hget hsm hdb] at hsucc
          simp at hsucc
  · intro st q cq l hget hdb hmem hconf
    have hqval : q ∈ validPaths st.fs (file_hash cq) l := by
      unfold validPaths
      apply List.mem_filter.mpr
      refine ⟨hmem, ?_⟩
      rw [hget]
      exact decide_eq_true rfl
    have hvne : validPaths st.fs (file_hash cq) l ≠ [] := by
      intro hnil
      rw [hnil] at hqval
      cases hqval
    exact ⟨dbLookup_reconcile st.fs st.confirmed st.db (file_hash cq) l hdb hconf hvne,
      hqval⟩

/-- C9, witness: the small-skip arm of the second-pass theorem at the
concrete second-run state left by the first run. -/
theorem C9_witness :
    (compress_image oracleShrink stSecondRun jpgA).1.stats.processed =
      stSecondRun.stats.processed ∧
    (compress_image oracleShrink stSecondRun jpgA).1.fs = stSecondRun.fs ∧
    (compress_image oracleShrink stSecondRun jpgA).2 = [Ev.hashed jpgA] :=
  (C9_amended oracleShrink).1 stSecondRun jpgA ⟨MB, 1⟩ (by decide)
    (Or.inl (by decide))

/-! Claim C10. -/

/-- C10, counterexample: a 3 MiB a.png whose conversion raises is handed
to the PIL fallback at its original path, which compresses it in place;
the run counts it processed and the committed 1 MiB result still lives at
a.png, so a compressed png can keep its original path and extension. -/
theorem C10_counterexample :
    (compress_image oraclePilOnly stPngA pngA).1.stats.processed = 1 ∧
    fsGet stPngA.fs pngA = some ⟨3 * MB, 0⟩ ∧
    fsGet (compress_image oraclePilOnly stPngA pngA).1.fs pngA = some ⟨MB, 1⟩ := by
  decide

/-- C10, amended: when the png conversion succeeds, the chosen target is a
fresh sibling path with suffix .jpg - the bare stem or the stem with a
parenthesized counter of at least 1 when the bare name is taken - the file
at the original .png path is deleted, the converted bytes live at the new
path, and every outcome of the external adapter continues at that new
path with the original path still absent.  (When the conversion fails the
original keeps its path, and the PIL fallback may then compress it in
place, as the counterexample shows.) -/
theorem C10_amended (O : Oracles) (fs : FS) (p : Pth) (c : Content)
    (np : Pth) (cj : Content) (fs1 : FS)
    (_hext : p.ext = ".png") (hc : fsGet fs p = some c)
    (hcv : convert_png_to_jpeg O fs p c = some (np, cj, fs1)) :
    np.ext = ".jpg" ∧ fsGet fs np = none ∧ np ≠ p ∧
    (np.stem = p.stem ∨
      ∃ k, 1 ≤ k ∧ np.stem = p.stem ++ " (" ++ toString k ++ ")") ∧
    fsGet fs1 p = none ∧ fsGet fs1 np = some cj ∧
    (∀ r, compress_with_external O fs p ".png" = .ok r →
       r.path = np ∧ fsGet r.fs p = none) := by
  obtain ⟨hf, hpc, hfs1⟩ := convert_spec O fs p c np cj fs1 hcv
  obtain ⟨hnpne, hfresh, hp1, hpnp⟩ := convert_fs O fs p c np cj fs1 hc hcv
  obtain ⟨_, hextjpg, hstem⟩ := freshJpeg_spec fs p.stem np hf
  refine ⟨hextjpg, hfresh, hnpne, hstem, hp1, hpnp, ?_⟩
  intro r hr
  rw [external_png_eq O fs p c hc, hcv] at hr
  dsimp only at hr
  by_cases hcj : cj.sz ≤ TARGET_SIZE
  · rw [if_pos hcj] at hr
    injection hr with hr2
    rw [← hr2]
    exact ⟨rfl, hp1⟩
  · rw [if_neg hcj] at hr
    injection hr with hr2
    rw [← hr2]
    refine ⟨ladderCommit_path _ _ _ _ _ _ _ _, ?_⟩
    by_cases hok : (ladderCommit (O.extEnc ".jpg" cj) fs1 np cj.sz (O.hasExif c)
        O.injectSave Ev.extTool [Ev.pngOpen p]).ok = true
    · obtain ⟨cL, _, hfsr⟩ := ladderCommit_ok _ _ _ _ _ _ _ _ hok
      rw [hfsr, fsGet_fsSet_ne _ _ _ _ (Ne.symm hnpne)]
      exact hp1
    · rw [ladderCommit_not_ok _ _ _ _ _ _ _ _ (Bool.eq_false_iff.mpr hok)]
      exact hp1

/-- C10, witness: the concrete conversion of a 3 MiB a.png into a 5 MiB
a.jpg instantiates the amended claim. -/
theorem C10_witness :
    jpgA.ext = ".jpg" ∧ fsGet stPngA.fs jpgA = none ∧ jpgA ≠ pngA ∧
    (jpgA.stem = pngA.stem ∨
      ∃ k, 1 ≤ k ∧ jpgA.stem = pngA.stem ++ " (" ++ toString k ++ ")") ∧
    fsGet [(jpgA, ⟨5 * MB, 1⟩)] pngA = none ∧
    fsGet [(jpgA, ⟨5 * MB, 1⟩)] jpgA = some ⟨5 * MB, 1⟩ ∧
    (∀ r, compress_with_external oraclePngStuck stPngA.fs pngA ".png" = .ok r →
       r.path = jpgA ∧ fsGet r.fs pngA = none) :=
  C10_amended oraclePngStuck stPngA.fs pngA ⟨3 * MB, 0⟩ jpgA ⟨5 * MB, 1⟩
    [(jpgA, ⟨5 * MB, 1⟩)] (by decide) (by decide) (by decide)

end ImageCompressor
